import Mathlib

/-!
Verification of the self-update command of the `tailscale` CLI
(`cmd/tailscale/cli`, file with `updateCmd`).

The Go source is shallowly embedded: strings and byte slices become
`List Char`, fallible functions return `Except`/`Option`, and the I/O
surrounding the pure cores (file reads/writes, HTTP transfers, subprocess
invocations) is abstracted into explicit environment records holding the
values the code would have observed.
-/

/-- Convert a Lean string literal to the `List Char` representation used
throughout the embedding. -/
def chars (s : String) : List Char := s.data

deriving instance DecidableEq for Except

/-! ## Generic list lemmas used by the scanner proofs -/

/-- `[]` is a prefix of everything. -/
theorem isPrefixOf_nil (l : List Char) : List.isPrefixOf [] l = true := by
  cases l <;> rfl

/-- Unfolding `isPrefixOf` on two conses. -/
theorem isPrefixOf_cons_cons (a b : Char) (as bs : List Char) :
    List.isPrefixOf (a :: as) (b :: bs) = ((a == b) && List.isPrefixOf as bs) := rfl

/-- A nonempty list is not a prefix of `[]`. -/
theorem isPrefixOf_cons_nil (a : Char) (as : List Char) :
    List.isPrefixOf (a :: as) [] = false := rfl

/-- Every list is a prefix of itself followed by anything. -/
theorem isPrefixOf_append_self (x y : List Char) :
    List.isPrefixOf x (x ++ y) = true := by
  induction x with
  | nil => exact isPrefixOf_nil y
  | cons a as ih => simp [isPrefixOf_cons_cons, ih]

/-- Cancelling a common prefix on both sides of `isPrefixOf`. -/
theorem isPrefixOf_append_both (x a b : List Char) :
    List.isPrefixOf (x ++ a) (x ++ b) = List.isPrefixOf a b := by
  induction x with
  | nil => rfl
  | cons c cs ih => simp [isPrefixOf_cons_cons, ih]

/-- A prefix of `y` is a prefix of `y ++ z`. -/
theorem isPrefixOf_append_right (x y z : List Char) (h : List.isPrefixOf x y = true) :
    List.isPrefixOf x (y ++ z) = true := by
  induction x generalizing y with
  | nil => exact isPrefixOf_nil _
  | cons a as ih =>
    cases y with
    | nil => exact absurd h (by simp [isPrefixOf_cons_nil])
    | cons b bs =>
      rw [isPrefixOf_cons_cons] at h
      rcases Bool.and_eq_true_iff.mp h with ⟨h1, h2⟩
      simp only [List.cons_append, isPrefixOf_cons_cons, h1, Bool.true_and]
      exact ih bs h2

/-- If `p` is a prefix of `l` then `l` decomposes as `p ++ l.drop p.length`. -/
theorem eq_append_drop_of_isPrefixOf (p l : List Char) (h : List.isPrefixOf p l = true) :
    l = p ++ l.drop p.length := by
  induction p generalizing l with
  | nil => simp
  | cons a as ih =>
    cases l with
    | nil => exact absurd h (by simp [isPrefixOf_cons_nil])
    | cons b bs =>
      rw [isPrefixOf_cons_cons] at h
      rcases Bool.and_eq_true_iff.mp h with ⟨h1, h2⟩
      have hb : a = b := by
        have := of_decide_eq_true (by simpa [BEq.beq] using h1)
        exact this
      subst hb
      simpa [List.length_cons, List.drop_succ_cons] using congrArg (a :: ·) (ih bs h2)

/-- A prefix is no longer than the list it prefixes. -/
theorem length_le_of_isPrefixOf (p l : List Char) (h : List.isPrefixOf p l = true) :
    p.length ≤ l.length := by
  induction p generalizing l with
  | nil => simp
  | cons a as ih =>
    cases l with
    | nil => exact absurd h (by simp [isPrefixOf_cons_nil])
    | cons b bs =>
      rw [isPrefixOf_cons_cons] at h
      rcases Bool.and_eq_true_iff.mp h with ⟨_, h2⟩
      simpa [List.length_cons] using Nat.succ_le_succ (ih bs h2)

/-- If `x` and `y` disagree at some index present in both, `x` is not a
prefix of any extension of `y`. -/
theorem isPrefixOf_append_eq_false_of_ne_at (x y o : List Char) (i : Nat)
    (hix : i < x.length) (hiy : i < y.length) (hne : x.get? i ≠ y.get? i) :
    List.isPrefixOf x (y ++ o) = false := by
  induction x generalizing y i with
  | nil => exact absurd hix (by simp)
  | cons a as ih =>
    cases y with
    | nil => exact absurd hiy (by simp)
    | cons b bs =>
      cases i with
      | zero =>
        have hab : a ≠ b := by
          intro hcontra; exact hne (by simp [hcontra])
        simp [List.cons_append, isPrefixOf_cons_cons, beq_eq_false_iff_ne.mpr hab]
      | succ j =>
        simp only [List.cons_append, isPrefixOf_cons_cons]
        have := ih bs j (Nat.lt_of_succ_lt_succ hix) (Nat.lt_of_succ_lt_succ hiy)
          (by simpa [List.get?] using hne)
        simp [this]

/-- A prefix of `x ++ [c]` that does not contain `c` is a prefix of `x`. -/
theorem isPrefixOf_of_isPrefixOf_append_singleton (p x : List Char) (c : Char)
    (hc : c ∉ p) (h : List.isPrefixOf p (x ++ [c]) = true) :
    List.isPrefixOf p x = true := by
  induction p generalizing x with
  | nil => exact isPrefixOf_nil x
  | cons a as ih =>
    cases x with
    | nil =>
      -- p is a nonempty prefix of [c], so a = c ∈ p: contradiction
      exfalso
      cases as with
      | nil =>
        have : a = c := by
          have h' : List.isPrefixOf [a] [c] = true := h
          rw [isPrefixOf_cons_cons] at h'
          have := Bool.and_eq_true_iff.mp h'
          exact of_decide_eq_true (by simpa [BEq.beq] using this.1)
        exact hc (this ▸ List.mem_singleton_self a)
      | cons a' as' =>
        have h' : List.isPrefixOf (a :: a' :: as') [c] = true := h
        rw [isPrefixOf_cons_cons] at h'
        have := Bool.and_eq_true_iff.mp h'
        exact absurd this.2 (by simp [isPrefixOf_cons_nil])
    | cons b bs =>
      simp only [List.cons_append, isPrefixOf_cons_cons] at h ⊢
      rcases Bool.and_eq_true_iff.mp h with ⟨h1, h2⟩
      have : c ∉ as := fun hmem => hc (List.mem_cons_of_mem _ hmem)
      simp [h1, ih bs this h2]

/-! ## `bufio.Scanner` with `bufio.ScanLines`

Both ConfigRewriter variants iterate over the input with
`bufio.NewScanner(bytes.NewReader(was))`, whose default split function
`ScanLines` yields the input split at `'\n'`, with one carriage return
dropped from the end of each line, and with a final line that lacks a
terminating newline still yielded.  (The model treats lines as unbounded;
the scanner's 64 KiB token limit is a property of `bufio`, not of this
repository.) -/

/-- `bufio.ScanLines`'s `dropCR`: drop one terminal `'\r'`. -/
def dropCR (l : List Char) : List Char :=
  if l.getLast? = some '\r' then l.dropLast else l

/-- Raw tokens: the input split at `'\n'`, with a final line that lacks a
terminating newline still yielded and no empty token after a final
newline. -/
def rawScanLines : List Char → List (List Char)
  | [] => []
  | c :: cs =>
    if c = '\n' then [] :: (if cs = [] then [] else rawScanLines cs)
    else
      match rawScanLines cs with
      | [] => [[c]]
      | t :: ts => (c :: t) :: ts

/-- The token stream produced by `bufio.ScanLines` on the given bytes. -/
def goScanLines (l : List Char) : List (List Char) :=
  (rawScanLines l).map dropCR

/-- Writing each line back followed by `'\n'`, as both rewriters do with
`buf.WriteByte('\n')` / `fmt.Fprintln`. -/
def unlines (ls : List (List Char)) : List Char :=
  ls.foldr (fun l acc => l ++ '\n' :: acc) []

theorem mem_of_getLast?_eq (l : List Char) (c : Char) (h : l.getLast? = some c) :
    c ∈ l := by
  rcases List.mem_getLast?_eq_getLast (l := l) (x := c) h with ⟨hne, heq⟩
  rw [heq]
  exact List.getLast_mem hne

theorem dropCR_eq_self_of_not_mem (l : List Char) (h : '\r' ∉ l) : dropCR l = l := by
  unfold dropCR
  have : l.getLast? ≠ some '\r' := by
    intro hcontra
    exact h (mem_of_getLast?_eq l '\r' hcontra)
  simp [this]

theorem dropCR_append_cr (l : List Char) : dropCR (l ++ ['\r']) = l := by
  unfold dropCR
  simp

/-- Either `dropCR` is the identity, or the line ends in `'\r'` and
`dropCR` removes exactly that character. -/
theorem dropCR_cases (l : List Char) :
    dropCR l = l ∨ l = dropCR l ++ ['\r'] := by
  unfold dropCR
  by_cases h : l.getLast? = some '\r'
  · right
    simp only [h, if_pos]
    exact (List.dropLast_append_getLast? '\r' h).symm
  · left; simp [h]

theorem mem_of_mem_dropCR (l : List Char) (c : Char) (h : c ∈ dropCR l) : c ∈ l := by
  unfold dropCR at h
  split at h
  · exact (List.dropLast_sublist l).mem h
  · exact h

theorem rawScanLines_append_nl (a : List Char) (x : List Char) (ha : '\n' ∉ a) :
    rawScanLines (a ++ '\n' :: x)
      = a :: (if x = [] then [] else rawScanLines x) := by
  induction a with
  | nil =>
    rw [List.nil_append, rawScanLines]
    simp
  | cons c cs ih =>
    have hc : c ≠ '\n' := fun h => ha (h ▸ List.mem_cons_self c cs)
    rw [List.cons_append, rawScanLines, if_neg hc,
      ih (fun h => ha (List.mem_cons_of_mem c h))]

theorem unlines_ne_nil (a : List Char) (rest : List (List Char)) :
    unlines (a :: rest) ≠ [] := by
  show a ++ '\n' :: unlines rest ≠ []
  simp

/-- Scanning the concatenation of newline-terminated lines yields the
lines back, each with one terminal `'\r'` dropped. -/
theorem goScanLines_unlines (ls : List (List Char))
    (hnl : ∀ l ∈ ls, '\n' ∉ l) :
    goScanLines (unlines ls) = ls.map dropCR := by
  induction ls with
  | nil => rfl
  | cons a rest ih =>
    have hu : unlines (a :: rest) = a ++ '\n' :: unlines rest := rfl
    unfold goScanLines
    rw [hu, rawScanLines_append_nl a (unlines rest) (hnl a (List.mem_cons_self a rest))]
    cases hrest : rest with
    | nil =>
      subst hrest
      rw [show unlines ([] : List (List Char)) = [] from rfl]
      simp
    | cons b bs =>
      rw [if_neg (hrest ▸ unlines_ne_nil b bs)]
      have hmap := ih (fun l hl => hnl l (List.mem_cons_of_mem a hl))
      unfold goScanLines at hmap
      rw [hrest] at hmap
      rw [List.map_cons, hmap]
      simp

theorem rawScanLines_token_props (l : List Char) :
    ∀ t ∈ rawScanLines l, ('\n' ∉ t ∧ ∀ c ∈ t, c ∈ l) := by
  induction l with
  | nil => intro t ht; rw [rawScanLines] at ht; simp at ht
  | cons c cs ih =>
    intro t ht
    by_cases hc : c = '\n'
    · subst hc
      rw [rawScanLines, if_pos rfl] at ht
      rcases List.mem_cons.mp ht with rfl | hmem
      · exact ⟨by simp, by simp⟩
      · have hx : t ∈ rawScanLines cs := by
          by_cases hcs : cs = []
          · rw [if_pos hcs] at hmem; simp at hmem
          · rw [if_neg hcs] at hmem; exact hmem
        have := ih t hx
        exact ⟨this.1, fun d hd => List.mem_cons_of_mem _ (this.2 d hd)⟩
    · rw [rawScanLines, if_neg hc] at ht
      cases hr : rawScanLines cs with
      | nil =>
        rw [hr] at ht
        rcases List.mem_singleton.mp ht with rfl
        constructor
        · intro hmem
          rcases List.mem_singleton.mp hmem with rfl
          exact hc rfl
        · intro d hd
          rcases List.mem_singleton.mp hd with rfl
          exact List.mem_cons_self d cs
      | cons t0 ts =>
        rw [hr] at ht
        rcases List.mem_cons.mp ht with rfl | hmem
        · have h0 := ih t0 (by rw [hr]; exact List.mem_cons_self t0 ts)
          constructor
          · intro hmem
            rcases List.mem_cons.mp hmem with h | h
            · exact hc h.symm
            · exact h0.1 h
          · intro d hd
            rcases List.mem_cons.mp hd with rfl | h
            · exact List.mem_cons_self d cs
            · exact List.mem_cons_of_mem c (h0.2 d h)
        · have := ih t (by rw [hr]; exact List.mem_cons_of_mem t0 hmem)
          exact ⟨this.1, fun d hd => List.mem_cons_of_mem c (this.2 d hd)⟩

/-- Tokens of `goScanLines` never contain `'\n'`, and all their characters
come from the scanned input. -/
theorem goScanLines_token_props :
    ∀ (n : Nat) (l : List Char), l.length ≤ n →
      ∀ t ∈ goScanLines l, ('\n' ∉ t ∧ ∀ c ∈ t, c ∈ l) := by
  intro _ l _ t ht
  unfold goScanLines at ht
  rcases List.mem_map.mp ht with ⟨t0, ht0, rfl⟩
  have := rawScanLines_token_props l t0 ht0
  exact ⟨fun h => this.1 (mem_of_mem_dropCR _ _ h),
    fun c hc => this.2 c (mem_of_mem_dropCR _ _ hc)⟩

/-! ## Track inference: `versionIsStable`

```go
func versionIsStable(v string) (stable, wellFormed bool) {
    _, rest, ok := strings.Cut(v, ".")
    if !ok { return false, false }
    minorStr, _, ok := strings.Cut(rest, ".")
    if !ok { return false, false }
    minor, err := strconv.Atoi(minorStr)
    if err != nil { return false, false }
    return minor%2 == 0, true
}
```
-/

/-- `strings.Cut(v, ".")`: split around the first dot; `none` when no dot
occurs (`ok == false`). -/
def goCutDot : List Char → Option (List Char × List Char)
  | [] => none
  | c :: cs =>
    if c = '.' then some ([], cs)
    else match goCutDot cs with
      | none => none
      | some (a, b) => some (c :: a, b)

/-- Numeric value of a digit run. -/
def digitsVal (ds : List Char) : Nat :=
  ds.foldl (fun a c => 10 * a + (c.toNat - 48)) 0

/-- `strconv.Atoi`: optional sign, one or more decimal digits, value
within the 64-bit `int` range; everything else is an error. -/
def goAtoi (s : List Char) : Option Int :=
  let signDigits : Bool × List Char :=
    match s with
    | '+' :: r => (false, r)
    | '-' :: r => (true, r)
    | r => (false, r)
  let neg := signDigits.1
  let ds := signDigits.2
  if ds = [] then none
  else if ¬ (ds.all fun c => decide ('0' ≤ c) && decide (c ≤ '9')) then none
  else
    let n : Int := (digitsVal ds : Nat)
    let v : Int := if neg then -n else n
    if v < -(2 ^ 63) ∨ 2 ^ 63 - 1 < v then none else some v

/-- `versionIsStable` from the source, as a pair `(stable, wellFormed)`. -/
def versionIsStable (v : List Char) : Bool × Bool :=
  match goCutDot v with
  | none => (false, false)
  | some (_, rest) =>
    match goCutDot rest with
    | none => (false, false)
    | some (minorStr, _) =>
      match goAtoi minorStr with
      | none => (false, false)
      | some minor => (minor % 2 == 0, true)

theorem goCutDot_shrinks :
    ∀ (v a b : List Char), goCutDot v = some (a, b) → b.length < v.length := by
  intro v
  induction v with
  | nil => intro a b h; simp [goCutDot] at h
  | cons c cs ih =>
    intro a b h
    rw [goCutDot] at h
    split at h
    · injection h with h'
      injection h' with h1 h2
      subst h2
      simp
    · cases hcs : goCutDot cs with
      | none => rw [hcs] at h; simp at h
      | some p =>
        rw [hcs] at h
        simp only [Option.some.injEq] at h
        cases p with
        | mk a' b' =>
          have := ih a' b' hcs
          have hb : b = b' := by
            have h2 := congrArg Prod.snd h
            simpa using h2.symm
          subst hb
          simp only [List.length_cons]
          omega

/-- The dot-separated components of a string (the spec's notion used to
state the track-inference rule). -/
def dotComponents : List Char → List (List Char)
  | [] => [[]]
  | c :: cs =>
    if c = '.' then [] :: dotComponents cs
    else
      match dotComponents cs with
      | [] => [[c]]
      | t :: ts => (c :: t) :: ts

/-- The second dot-separated component, when present. -/
def secondDotComponent (v : List Char) : List Char :=
  ((dotComponents v).get? 1).getD []

theorem dotComponents_ne_nil (v : List Char) : dotComponents v ≠ [] := by
  cases v with
  | nil => simp [dotComponents]
  | cons c cs =>
    rw [dotComponents]
    by_cases hc : c = '.'
    · rw [if_pos hc]; simp
    · rw [if_neg hc]
      cases dotComponents cs <;> simp

theorem dotComponents_eq_of_none (v : List Char) (h : goCutDot v = none) :
    dotComponents v = [v] := by
  induction v with
  | nil => rfl
  | cons c cs ih =>
    rw [goCutDot] at h
    by_cases hc : c = '.'
    · rw [if_pos hc] at h; simp at h
    · rw [if_neg hc] at h
      have hcs : goCutDot cs = none := by
        cases hr : goCutDot cs with
        | none => rfl
        | some p =>
          rw [hr] at h
          obtain ⟨a, b⟩ := p
          simp at h
      rw [dotComponents, if_neg hc, ih hcs]

theorem dotComponents_eq_of_some (v a b : List Char) (h : goCutDot v = some (a, b)) :
    dotComponents v = a :: dotComponents b := by
  induction v generalizing a b with
  | nil => rw [goCutDot] at h; simp at h
  | cons c cs ih =>
    rw [goCutDot] at h
    by_cases hc : c = '.'
    · rw [if_pos hc] at h
      injection h with h'
      injection h' with h1 h2
      subst h1
      subst h2
      rw [dotComponents, if_pos hc]
    · rw [if_neg hc] at h
      cases hr : goCutDot cs with
      | none => rw [hr] at h; simp at h
      | some p =>
        obtain ⟨a', b'⟩ := p
        rw [hr] at h
        dsimp only at h
        injection h with h'
        have h1 : c :: a' = a := congrArg Prod.fst h'
        have h2 : b' = b := congrArg Prod.snd h'
        subst h1
        subst h2
        rw [dotComponents, if_neg hc, ih a' b' hr]

/-- Well-formedness of `versionIsStable` characterized: the input must
have at least three dot-separated components (two dots) and an
`Atoi`-numeric second component. -/
theorem versionIsStable_wellFormed_iff (v : List Char) :
    (versionIsStable v).2
      = (decide (3 ≤ (dotComponents v).length) && (goAtoi (secondDotComponent v)).isSome) := by
  unfold versionIsStable secondDotComponent
  cases h1 : goCutDot v with
  | none =>
    rw [dotComponents_eq_of_none v h1]
    simp
  | some p1 =>
    obtain ⟨a, rest⟩ := p1
    rw [dotComponents_eq_of_some v a rest h1]
    dsimp only
    cases h2 : goCutDot rest with
    | none =>
      rw [dotComponents_eq_of_none rest h2]
      simp [h2]
    | some p2 =>
      obtain ⟨minorStr, tail2⟩ := p2
      rw [dotComponents_eq_of_some rest minorStr tail2 h2]
      dsimp only
      have hlen : 3 ≤ (a :: minorStr :: dotComponents tail2).length := by
        have := dotComponents_ne_nil tail2
        have : 1 ≤ (dotComponents tail2).length := by
          cases hdc : dotComponents tail2 with
          | nil => exact absurd hdc this
          | cons x xs => simp
        simp only [List.length_cons]
        omega
      simp only [List.get?, Option.getD_some, decide_eq_true hlen, Bool.true_and]
      cases h3 : goAtoi minorStr <;> simp [h3]

/-- On well-formed inputs `versionIsStable` returns the parity of the
second component. -/
theorem versionIsStable_of_numeric (v : List Char) (m : Int)
    (hlen : 3 ≤ (dotComponents v).length)
    (hatoi : goAtoi (secondDotComponent v) = some m) :
    versionIsStable v = (m % 2 == 0, true) := by
  unfold versionIsStable
  unfold secondDotComponent at hatoi
  cases h1 : goCutDot v with
  | none =>
    rw [dotComponents_eq_of_none v h1] at hlen
    simp at hlen
  | some p1 =>
    obtain ⟨a, rest⟩ := p1
    rw [dotComponents_eq_of_some v a rest h1] at hlen hatoi
    dsimp only
    cases h2 : goCutDot rest with
    | none =>
      rw [dotComponents_eq_of_none rest h2] at hlen
      simp at hlen
    | some p2 =>
      obtain ⟨minorStr, tail2⟩ := p2
      rw [dotComponents_eq_of_some rest minorStr tail2 h2] at hatoi
      simp only [List.get?, Option.getD_some] at hatoi
      dsimp only
      simp [hatoi]

/-! ## apt variant: `updateDebianAptSourcesListBytes`

```go
func updateDebianAptSourcesListBytes(was []byte, dstTrack string) (newContent []byte, err error) {
    trackURLPrefix := []byte("https://pkgs.tailscale.com/" + dstTrack + "/")
    ...
    commentLine := regexp.MustCompile(`^\s*\#`)
    pkgsURL := regexp.MustCompile(`\bhttps://pkgs\.tailscale\.com/((un)?stable)/`)
    for bs.Scan() {
        line := bs.Bytes()
        if !commentLine.Match(line) {
            line = pkgsURL.ReplaceAllFunc(line, func(m []byte) []byte {
                if bytes.Equal(m, trackURLPrefix) { hadCorrect = true } else { changes++ }
                return trackURLPrefix
            })
        }
        buf.Write(line); buf.WriteByte('\n')
    }
    if hadCorrect || (changes == 1 && bytes.Equal(bytes.TrimSpace(was), bytes.TrimSpace(buf.Bytes()))) {
        return was, nil
    }
    if changes != 1 { return nil, fmt.Errorf("unexpected/unsupported %s contents", aptSourcesFile) }
    return buf.Bytes(), nil
}
```
-/

/-- The two alternatives of `https://pkgs\.tailscale\.com/((un)?stable)/`. -/
def patStable : List Char := chars "https://pkgs.tailscale.com/stable/"

def patUnstable : List Char := chars "https://pkgs.tailscale.com/unstable/"

/-- `https://pkgs.tailscale.com/<dstTrack>/`, the replacement text. -/
def trackURLOf (dstTrack : List Char) : List Char :=
  chars "https://pkgs.tailscale.com/" ++ dstTrack ++ ['/']

/-- RE2 word character, for the `\b` boundary before `https`. -/
def isWordChar (c : Char) : Bool :=
  (decide ('a' ≤ c) && decide (c ≤ 'z')) || (decide ('A' ≤ c) && decide (c ≤ 'Z'))
    || (decide ('0' ≤ c) && decide (c ≤ '9')) || (c == '_')

/-- RE2 `\s`: `[\t\n\f\r ]`. -/
def isReSpace (c : Char) : Bool :=
  (c == '\t') || (c == '\n') || (c == '\x0c') || (c == '\r') || (c == ' ')

/-- `commentLine.Match`, i.e. the line matches `^\s*#`. -/
def isCommentLine : List Char → Bool
  | [] => false
  | c :: cs => if isReSpace c then isCommentLine cs else c == '#'

/-- One pass of `pkgsURL.ReplaceAllFunc` over a line, threading the
`\b` state (`prev` = preceding character is a word character) and
counting correct (`m = trackURLPrefix`) and changed matches.
Returns `(rewritten line, correct count, changed count)`.
The `fuel` argument only drives structural recursion; it never runs out
when it starts at the line length (see `aptScan`). -/
def aptScanF (tgt : List Char) : Nat → Bool → List Char → List Char × Nat × Nat
  | _, _, [] => ([], 0, 0)
  | 0, _, _ :: _ => ([], 0, 0)
  | fuel + 1, prev, c :: cs =>
    if !prev && List.isPrefixOf patUnstable (c :: cs) then
      let r := aptScanF tgt fuel false ((c :: cs).drop patUnstable.length)
      (tgt ++ r.1,
        r.2.1 + (if patUnstable = tgt then 1 else 0),
        r.2.2 + (if patUnstable = tgt then 0 else 1))
    else if !prev && List.isPrefixOf patStable (c :: cs) then
      let r := aptScanF tgt fuel false ((c :: cs).drop patStable.length)
      (tgt ++ r.1,
        r.2.1 + (if patStable = tgt then 1 else 0),
        r.2.2 + (if patStable = tgt then 0 else 1))
    else
      let r := aptScanF tgt fuel (isWordChar c) cs
      (c :: r.1, r.2.1, r.2.2)

/-- The line scanner, at its natural amount of fuel. -/
def aptScan (tgt : List Char) (prev : Bool) (l : List Char) : List Char × Nat × Nat :=
  aptScanF tgt l.length prev l

/-- Per-line processing: comment lines are untouched, others are scanned
with the `\b` state starting as "no preceding word character". -/
def aptProcessLine (tgt : List Char) (l : List Char) : List Char × Nat × Nat :=
  if isCommentLine l then (l, 0, 0) else aptScan tgt false l

/-- `unicode.IsSpace` restricted to the ASCII range, as used by
`bytes.TrimSpace` (the embedding treats content as ASCII text). -/
def isGoSpace (c : Char) : Bool :=
  (c == '\t') || (c == '\n') || (c == '\x0b') || (c == '\x0c') || (c == '\r') || (c == ' ')

/-- `bytes.TrimSpace`. -/
def goTrimSpace (l : List Char) : List Char :=
  ((l.dropWhile isGoSpace).reverse.dropWhile isGoSpace).reverse

def aptSourcesFile : List Char := chars "/etc/apt/sources.list.d/tailscale.list"

/-- All per-line results for a given input. -/
def aptOuts (dstTrack : List Char) (was : List Char) : List (List Char × Nat × Nat) :=
  (goScanLines was).map (aptProcessLine (trackURLOf dstTrack))

/-- Total number of matches equal to the desired track (the `hadCorrect`
flag of the source is `true` iff this is nonzero). -/
def aptCorrectCount (dstTrack was : List Char) : Nat :=
  ((aptOuts dstTrack was).map (fun p => p.2.1)).sum

/-- Total number of rewritten (changed) matches, the source's `changes`. -/
def aptChangeCount (dstTrack was : List Char) : Nat :=
  ((aptOuts dstTrack was).map (fun p => p.2.2)).sum

/-- The accumulated `buf` contents. -/
def aptBuf (dstTrack was : List Char) : List Char :=
  unlines ((aptOuts dstTrack was).map (fun p => p.1))

/-- `updateDebianAptSourcesListBytes`.  `Except.error` is the
"unexpected/unsupported contents" failure (which returns no content). -/
def updateDebianAptSourcesListBytes (was : List Char) (dstTrack : List Char) :
    Except (List Char) (List Char) :=
  if aptCorrectCount dstTrack was ≠ 0
      ∨ (aptChangeCount dstTrack was = 1 ∧ goTrimSpace was = goTrimSpace (aptBuf dstTrack was)) then
    Except.ok was
  else if aptChangeCount dstTrack was ≠ 1 then
    Except.error (chars "unexpected/unsupported " ++ aptSourcesFile ++ chars " contents")
  else
    Except.ok (aptBuf dstTrack was)

/-! ## yum variant: `updateYUMRepoTrack`

```go
urlRe := regexp.MustCompile(`^(baseurl|gpgkey)=https://pkgs\.tailscale\.com/(un)?stable/`)
urlReplacement := fmt.Sprintf("$1=https://pkgs.tailscale.com/%s/", dstTrack)
for s.Scan() {
    line := s.Text()
    if len(line) > 0 && line[0] == '[' {
        if !strings.HasPrefix(line, "[tailscale-") { return false, fmt.Errorf(...) }
        fmt.Fprintf(newContent, "[tailscale-%s]\n", dstTrack); continue
    }
    if strings.HasPrefix(line, "name=") {
        fmt.Fprintf(newContent, "name=Tailscale %s\n", dstTrack); continue
    }
    if strings.HasPrefix(line, "baseurl=") || strings.HasPrefix(line, "gpgkey=") {
        fmt.Fprintln(newContent, urlRe.ReplaceAllString(line, urlReplacement)); continue
    }
    fmt.Fprintln(newContent, line)
}
if bytes.Equal(was, newContent.Bytes()) { return false, nil }
return true, os.WriteFile(repoFile, newContent.Bytes(), 0644)
```
-/

/-- `urlRe.ReplaceAllString(line, urlReplacement)`: the regex is anchored
at the line start, so there is at most one match, replaced by
`<key>=https://pkgs.tailscale.com/<dstTrack>/`. -/
def yumURLRewriteLine (dstTrack : List Char) (l : List Char) : List Char :=
  if List.isPrefixOf (chars "baseurl=https://pkgs.tailscale.com/unstable/") l then
    chars "baseurl=https://pkgs.tailscale.com/" ++ dstTrack ++ ['/']
      ++ l.drop (chars "baseurl=https://pkgs.tailscale.com/unstable/").length
  else if List.isPrefixOf (chars "baseurl=https://pkgs.tailscale.com/stable/") l then
    chars "baseurl=https://pkgs.tailscale.com/" ++ dstTrack ++ ['/']
      ++ l.drop (chars "baseurl=https://pkgs.tailscale.com/stable/").length
  else if List.isPrefixOf (chars "gpgkey=https://pkgs.tailscale.com/unstable/") l then
    chars "gpgkey=https://pkgs.tailscale.com/" ++ dstTrack ++ ['/']
      ++ l.drop (chars "gpgkey=https://pkgs.tailscale.com/unstable/").length
  else if List.isPrefixOf (chars "gpgkey=https://pkgs.tailscale.com/stable/") l then
    chars "gpgkey=https://pkgs.tailscale.com/" ++ dstTrack ++ ['/']
      ++ l.drop (chars "gpgkey=https://pkgs.tailscale.com/stable/").length
  else l

/-- Emission of one scanned line in `updateYUMRepoTrack`; `none` is the
"unexpected section" error return. -/
def yumLineEmit (dstTrack : List Char) (l : List Char) : Option (List Char) :=
  if l.head? = some '[' then
    if List.isPrefixOf (chars "[tailscale-") l then
      some (chars "[tailscale-" ++ dstTrack ++ [']'])
    else none
  else if List.isPrefixOf (chars "name=") l then
    some (chars "name=Tailscale " ++ dstTrack)
  else if List.isPrefixOf (chars "baseurl=") l || List.isPrefixOf (chars "gpgkey=") l then
    some (yumURLRewriteLine dstTrack l)
  else
    some l

/-- The `newContent` buffer built by `updateYUMRepoTrack`'s loop:
the pure rewriting core of the yum variant. -/
def yumNewContent (dstTrack : List Char) (was : List Char) : Option (List Char) :=
  ((goScanLines was).mapM (yumLineEmit dstTrack)).map unlines

/-- `updateYUMRepoTrack` up to the I/O at its boundary: the `rewrote`
flag is the negation of `bytes.Equal(was, newContent.Bytes())`. -/
def updateYUMRepoTrack (dstTrack : List Char) (was : List Char) :
    Option (Bool × List Char) :=
  (yumNewContent dstTrack was).map (fun nc => (decide (nc ≠ was), nc))

/-! ## Facts about the URL patterns and the scanner -/

theorem drop_append_of_le_len (n : Nat) (a b : List Char) (h : n ≤ a.length) :
    (a ++ b).drop n = a.drop n ++ b := by
  induction a generalizing n with
  | nil =>
    have : n = 0 := Nat.le_zero.mp (by simpa using h)
    subst this; simp
  | cons x xs ih =>
    cases n with
    | zero => simp
    | succ m =>
      simp only [List.cons_append, List.drop_succ_cons]
      exact ih m (by simpa using h)

theorem patStable_head : patStable = 'h' :: patStable.drop 1 := by decide

theorem patUnstable_head : patUnstable = 'h' :: patUnstable.drop 1 := by decide

theorem patStable_tail_hfree : 'h' ∉ patStable.drop 1 := by decide

theorem patUnstable_tail_hfree : 'h' ∉ patUnstable.drop 1 := by decide

theorem cr_not_mem_patStable : '\r' ∉ patStable := by decide

theorem cr_not_mem_patUnstable : '\r' ∉ patUnstable := by decide

/-- The two patterns differ at index 27 (`'s'` vs `'u'`), so neither is a
prefix of the other followed by anything. -/
theorem patUnstable_not_prefixOf_patStable_append (o : List Char) :
    List.isPrefixOf patUnstable (patStable ++ o) = false := by
  exact isPrefixOf_append_eq_false_of_ne_at patUnstable patStable o 27
    (by decide) (by decide) (by decide)

theorem patStable_not_prefixOf_patUnstable_append (o : List Char) :
    List.isPrefixOf patStable (patUnstable ++ o) = false := by
  exact isPrefixOf_append_eq_false_of_ne_at patStable patUnstable o 27
    (by decide) (by decide) (by decide)

theorem aptScanF_fuel_irrel (tgt : List Char) :
    ∀ (f1 : Nat) (l : List Char) (f2 : Nat) (prev : Bool),
      l.length ≤ f1 → l.length ≤ f2 → aptScanF tgt f1 prev l = aptScanF tgt f2 prev l := by
  intro f1
  induction f1 with
  | zero =>
    intro l f2 prev h1 h2
    have : l = [] := List.length_eq_zero.mp (Nat.le_zero.mp h1)
    subst this
    cases f2 <;> rfl
  | succ m ih =>
    intro l f2 prev h1 h2
    cases l with
    | nil => cases f2 <;> rfl
    | cons c cs =>
      cases f2 with
      | zero => simp at h2
      | succ m2 =>
        simp only [aptScanF]
        by_cases hu : (!prev && List.isPrefixOf patUnstable (c :: cs)) = true
        · rw [if_pos hu, if_pos hu]
          have hlen1 : ((c :: cs).drop patUnstable.length).length ≤ m := by
            have : 0 < patUnstable.length := by decide
            simp only [List.length_drop]
            simp only [List.length_cons] at h1 ⊢
            omega
          have hlen2 : ((c :: cs).drop patUnstable.length).length ≤ m2 := by
            have : 0 < patUnstable.length := by decide
            simp only [List.length_drop]
            simp only [List.length_cons] at h2 ⊢
            omega
          rw [ih ((c :: cs).drop patUnstable.length) m2 false hlen1 hlen2]
        · rw [if_neg hu, if_neg hu]
          by_cases hst : (!prev && List.isPrefixOf patStable (c :: cs)) = true
          · rw [if_pos hst, if_pos hst]
            have hlen1 : ((c :: cs).drop patStable.length).length ≤ m := by
              have : 0 < patStable.length := by decide
              simp only [List.length_drop]
              simp only [List.length_cons] at h1 ⊢
              omega
            have hlen2 : ((c :: cs).drop patStable.length).length ≤ m2 := by
              have : 0 < patStable.length := by decide
              simp only [List.length_drop]
              simp only [List.length_cons] at h2 ⊢
              omega
            rw [ih ((c :: cs).drop patStable.length) m2 false hlen1 hlen2]
          · rw [if_neg hst, if_neg hst]
            have hlen1 : cs.length ≤ m := by
              simp only [List.length_cons] at h1; omega
            have hlen2 : cs.length ≤ m2 := by
              simp only [List.length_cons] at h2; omega
            rw [ih cs m2 (isWordChar c) hlen1 hlen2]

theorem aptScan_nil (tgt : List Char) (prev : Bool) : aptScan tgt prev [] = ([], 0, 0) := rfl

theorem aptScan_cons_unstable (tgt : List Char) (c : Char) (cs : List Char)
    (h : List.isPrefixOf patUnstable (c :: cs) = true) :
    aptScan tgt false (c :: cs)
      = (tgt ++ (aptScan tgt false ((c :: cs).drop patUnstable.length)).1,
         (aptScan tgt false ((c :: cs).drop patUnstable.length)).2.1
           + (if patUnstable = tgt then 1 else 0),
         (aptScan tgt false ((c :: cs).drop patUnstable.length)).2.2
           + (if patUnstable = tgt then 0 else 1)) := by
  show aptScanF tgt (cs.length + 1) false (c :: cs) = _
  rw [aptScanF, if_pos (by simp [h])]
  have hlen : ((c :: cs).drop patUnstable.length).length ≤ cs.length := by
    have : 0 < patUnstable.length := by decide
    simp only [List.length_drop, List.length_cons]
    omega
  rw [aptScanF_fuel_irrel tgt cs.length ((c :: cs).drop patUnstable.length)
    ((c :: cs).drop patUnstable.length).length false hlen (Nat.le_refl _)]
  rfl

theorem aptScan_cons_stable (tgt : List Char) (c : Char) (cs : List Char)
    (h1 : List.isPrefixOf patUnstable (c :: cs) = false)
    (h2 : List.isPrefixOf patStable (c :: cs) = true) :
    aptScan tgt false (c :: cs)
      = (tgt ++ (aptScan tgt false ((c :: cs).drop patStable.length)).1,
         (aptScan tgt false ((c :: cs).drop patStable.length)).2.1
           + (if patStable = tgt then 1 else 0),
         (aptScan tgt false ((c :: cs).drop patStable.length)).2.2
           + (if patStable = tgt then 0 else 1)) := by
  show aptScanF tgt (cs.length + 1) false (c :: cs) = _
  rw [aptScanF, if_neg (by simp [h1]), if_pos (by simp [h2])]
  have hlen : ((c :: cs).drop patStable.length).length ≤ cs.length := by
    have : 0 < patStable.length := by decide
    simp only [List.length_drop, List.length_cons]
    omega
  rw [aptScanF_fuel_irrel tgt cs.length ((c :: cs).drop patStable.length)
    ((c :: cs).drop patStable.length).length false hlen (Nat.le_refl _)]
  rfl

theorem aptScan_cons_skip (tgt : List Char) (prev : Bool) (c : Char) (cs : List Char)
    (h : prev = true
      ∨ (List.isPrefixOf patUnstable (c :: cs) = false
          ∧ List.isPrefixOf patStable (c :: cs) = false)) :
    aptScan tgt prev (c :: cs)
      = (c :: (aptScan tgt (isWordChar c) cs).1,
         (aptScan tgt (isWordChar c) cs).2.1,
         (aptScan tgt (isWordChar c) cs).2.2) := by
  show aptScanF tgt (cs.length + 1) prev (c :: cs) = _
  rw [aptScanF]
  rcases h with h | ⟨h1, h2⟩
  · subst h
    simp
    exact ⟨rfl, rfl⟩
  · simp [h1, h2]
    exact ⟨rfl, rfl⟩

/-- An `'h'`-free prefix of the scanner's output is a prefix of its input:
every piece of text the scanner inserts (the replacement `tgt`, one of the
two patterns) starts with `'h'`, so `'h'`-free prefixes survive. -/
theorem aptScan_hfree_prefix (tgt : List Char)
    (htgt : tgt = patStable ∨ tgt = patUnstable) :
    ∀ (n : Nat) (l : List Char), l.length ≤ n → ∀ (Q : List Char), 'h' ∉ Q → ∀ (prev : Bool),
      List.isPrefixOf Q ((aptScan tgt prev l).1) = true → List.isPrefixOf Q l = true := by
  intro n
  induction n with
  | zero =>
    intro l hl Q hQ prev h
    have : l = [] := List.length_eq_zero.mp (Nat.le_zero.mp hl)
    subst this
    rw [aptScan_nil] at h
    exact h
  | succ m ih =>
    intro l hl Q hQ prev h
    cases l with
    | nil => rw [aptScan_nil] at h; exact h
    | cons c cs =>
      have htgt_head : ∃ t', tgt = 'h' :: t' := by
        rcases htgt with rfl | rfl
        · exact ⟨patStable.drop 1, patStable_head⟩
        · exact ⟨patUnstable.drop 1, patUnstable_head⟩
      -- helper for the two match branches, where the output starts with tgt
      have hmatch : ∀ (o : List Char),
          List.isPrefixOf Q (tgt ++ o) = true → List.isPrefixOf Q (c :: cs) = true := by
        intro o hpre
        cases Q with
        | nil => exact isPrefixOf_nil _
        | cons q qs =>
          exfalso
          rcases htgt_head with ⟨t', ht'⟩
          rw [ht', List.cons_append, isPrefixOf_cons_cons] at hpre
          rcases Bool.and_eq_true_iff.mp hpre with ⟨hq, -⟩
          have : q = 'h' := of_decide_eq_true (by simpa [BEq.beq] using hq)
          exact hQ (this ▸ List.mem_cons_self q qs)
      by_cases hu : (!prev && List.isPrefixOf patUnstable (c :: cs)) = true
      · rcases Bool.and_eq_true_iff.mp hu with ⟨hp, hpre⟩
        have hprev : prev = false := by
          cases prev
          · rfl
          · simp at hp
        subst hprev
        rw [aptScan_cons_unstable tgt c cs hpre] at h
        exact hmatch _ h
      · by_cases hs : (!prev && List.isPrefixOf patStable (c :: cs)) = true
        · rcases Bool.and_eq_true_iff.mp hs with ⟨hp, hpre⟩
          have hprev : prev = false := by
            cases prev
            · rfl
            · simp at hp
          subst hprev
          have hu' : List.isPrefixOf patUnstable (c :: cs) = false := by
            cases hres : List.isPrefixOf patUnstable (c :: cs)
            · rfl
            · exfalso; apply hu; simp [hres]
          rw [aptScan_cons_stable tgt c cs hu' hpre] at h
          exact hmatch _ h
        · -- skip branch
          have hcase : prev = true
              ∨ (List.isPrefixOf patUnstable (c :: cs) = false
                  ∧ List.isPrefixOf patStable (c :: cs) = false) := by
            cases prev
            · right
              constructor
              · cases hres : List.isPrefixOf patUnstable (c :: cs)
                · rfl
                · exfalso; apply hu; simp [hres]
              · cases hres : List.isPrefixOf patStable (c :: cs)
                · rfl
                · exfalso; apply hs; simp [hres]
            · left; rfl
          rw [aptScan_cons_skip tgt prev c cs hcase] at h
          cases Q with
          | nil => exact isPrefixOf_nil _
          | cons q qs =>
            rw [isPrefixOf_cons_cons] at h ⊢
            rcases Bool.and_eq_true_iff.mp h with ⟨hq, hqs⟩
            have hqs' := ih cs (by simpa using Nat.le_of_succ_le_succ hl) qs
              (fun hmem => hQ (List.mem_cons_of_mem q hmem)) (isWordChar c) hqs
            simp [hq, hqs']

/-- A trailing `'\r'` is inert for the scanner: it can complete no match
(neither pattern contains `'\r'`), so it is copied through and the match
counts are unchanged. -/
theorem aptScan_append_cr (tgt : List Char) :
    ∀ (n : Nat) (l : List Char), l.length ≤ n → ∀ (prev : Bool),
      aptScan tgt prev (l ++ ['\r'])
        = ((aptScan tgt prev l).1 ++ ['\r'],
           (aptScan tgt prev l).2.1, (aptScan tgt prev l).2.2) := by
  intro n
  induction n with
  | zero =>
    intro l hl prev
    have : l = [] := List.length_eq_zero.mp (Nat.le_zero.mp hl)
    subst this
    have hcase : prev = true
        ∨ (List.isPrefixOf patUnstable ['\r'] = false
            ∧ List.isPrefixOf patStable ['\r'] = false) := by
      cases prev
      · right; exact ⟨by decide, by decide⟩
      · left; rfl
    rw [List.nil_append, show ('\r' :: ([] : List Char)) = ['\r'] from rfl]
    rw [show (['\r'] : List Char) = '\r' :: [] from rfl] at hcase ⊢
    rw [aptScan_cons_skip tgt prev '\r' [] hcase, aptScan_nil, aptScan_nil]
    simp
  | succ m ih =>
    intro l hl prev
    cases l with
    | nil =>
      exact ih [] (by simp) prev
    | cons c cs =>
      have hprefix_ext : ∀ (P : List Char), '\r' ∉ P →
          List.isPrefixOf P (c :: (cs ++ ['\r'])) = List.isPrefixOf P (c :: cs) := by
        intro P hP
        cases hres : List.isPrefixOf P (c :: cs)
        · cases hext : List.isPrefixOf P (c :: (cs ++ ['\r']))
          · rfl
          · exfalso
            have : List.isPrefixOf P ((c :: cs) ++ ['\r']) = true := by
              simpa using hext
            have := isPrefixOf_of_isPrefixOf_append_singleton P (c :: cs) '\r' hP this
            rw [hres] at this
            exact Bool.false_ne_true this
        · have : List.isPrefixOf P ((c :: cs) ++ ['\r']) = true :=
            isPrefixOf_append_right P (c :: cs) ['\r'] hres
          simpa using this
      have hu_ext := hprefix_ext patUnstable cr_not_mem_patUnstable
      have hs_ext := hprefix_ext patStable cr_not_mem_patStable
      rw [List.cons_append]
      by_cases hu : (!prev && List.isPrefixOf patUnstable (c :: cs)) = true
      · rcases Bool.and_eq_true_iff.mp hu with ⟨hp, hpre⟩
        have hprev : prev = false := by revert hp; cases prev <;> simp
        subst hprev
        have hpre' : List.isPrefixOf patUnstable (c :: (cs ++ ['\r'])) = true := by
          rw [hu_ext]; exact hpre
        rw [aptScan_cons_unstable tgt c (cs ++ ['\r']) hpre',
            aptScan_cons_unstable tgt c cs hpre]
        have hlen : patUnstable.length ≤ (c :: cs).length :=
          length_le_of_isPrefixOf _ _ hpre
        have hdrop : (c :: (cs ++ ['\r'])).drop patUnstable.length
            = ((c :: cs).drop patUnstable.length) ++ ['\r'] := by
          rw [show (c :: (cs ++ ['\r'])) = (c :: cs) ++ ['\r'] by simp]
          exact drop_append_of_le_len _ _ _ hlen
        rw [hdrop, ih ((c :: cs).drop patUnstable.length)
          (by have hplen : 0 < patUnstable.length := by decide
              simp only [List.length_drop]
              simp only [List.length_cons] at hl ⊢
              omega) false]
        simp
      · by_cases hs : (!prev && List.isPrefixOf patStable (c :: cs)) = true
        · rcases Bool.and_eq_true_iff.mp hs with ⟨hp, hpre⟩
          have hprev : prev = false := by revert hp; cases prev <;> simp
          subst hprev
          have hu' : List.isPrefixOf patUnstable (c :: cs) = false := by
            cases hres : List.isPrefixOf patUnstable (c :: cs)
            · rfl
            · exfalso; apply hu; simp [hres]
          have hpre' : List.isPrefixOf patStable (c :: (cs ++ ['\r'])) = true := by
            rw [hs_ext]; exact hpre
          have hu'' : List.isPrefixOf patUnstable (c :: (cs ++ ['\r'])) = false := by
            rw [hu_ext]; exact hu'
          rw [aptScan_cons_stable tgt c (cs ++ ['\r']) hu'' hpre',
              aptScan_cons_stable tgt c cs hu' hpre]
          have hlen : patStable.length ≤ (c :: cs).length :=
            length_le_of_isPrefixOf _ _ hpre
          have hdrop : (c :: (cs ++ ['\r'])).drop patStable.length
              = ((c :: cs).drop patStable.length) ++ ['\r'] := by
            rw [show (c :: (cs ++ ['\r'])) = (c :: cs) ++ ['\r'] by simp]
            exact drop_append_of_le_len _ _ _ hlen
          rw [hdrop, ih ((c :: cs).drop patStable.length)
            (by have hplen : 0 < patStable.length := by decide
                simp only [List.length_drop]
                simp only [List.length_cons] at hl ⊢
                omega) false]
          simp
        · have hcase : prev = true
              ∨ (List.isPrefixOf patUnstable (c :: cs) = false
                  ∧ List.isPrefixOf patStable (c :: cs) = false) := by
            cases prev
            · right
              constructor
              · cases hres : List.isPrefixOf patUnstable (c :: cs)
                · rfl
                · exfalso; apply hu; simp [hres]
              · cases hres : List.isPrefixOf patStable (c :: cs)
                · rfl
                · exfalso; apply hs; simp [hres]
            · left; rfl
          have hcase' : prev = true
              ∨ (List.isPrefixOf patUnstable (c :: (cs ++ ['\r'])) = false
                  ∧ List.isPrefixOf patStable (c :: (cs ++ ['\r'])) = false) := by
            rcases hcase with h | ⟨h1, h2⟩
            · left; exact h
            · right; rw [hu_ext, hs_ext]; exact ⟨h1, h2⟩
          rw [aptScan_cons_skip tgt prev c (cs ++ ['\r']) hcase',
              aptScan_cons_skip tgt prev c cs hcase,
              ih cs (by simpa using Nat.le_of_succ_le_succ hl) (isWordChar c)]
          simp

theorem aptScan_match_unstable (tgt l : List Char)
    (h : List.isPrefixOf patUnstable l = true) :
    aptScan tgt false l
      = (tgt ++ (aptScan tgt false (l.drop patUnstable.length)).1,
         (aptScan tgt false (l.drop patUnstable.length)).2.1
           + (if patUnstable = tgt then 1 else 0),
         (aptScan tgt false (l.drop patUnstable.length)).2.2
           + (if patUnstable = tgt then 0 else 1)) := by
  cases l with
  | nil => exact absurd h (by decide)
  | cons c cs => exact aptScan_cons_unstable tgt c cs h

theorem aptScan_match_stable (tgt l : List Char)
    (h1 : List.isPrefixOf patUnstable l = false)
    (h2 : List.isPrefixOf patStable l = true) :
    aptScan tgt false l
      = (tgt ++ (aptScan tgt false (l.drop patStable.length)).1,
         (aptScan tgt false (l.drop patStable.length)).2.1
           + (if patStable = tgt then 1 else 0),
         (aptScan tgt false (l.drop patStable.length)).2.2
           + (if patStable = tgt then 0 else 1)) := by
  cases l with
  | nil => exact absurd h2 (by decide)
  | cons c cs => exact aptScan_cons_stable tgt c cs h1 h2

/-- Scanning text that begins with the replacement `tgt` (for a track in
`{stable, unstable}`) consumes exactly `tgt` as one correct match. -/
theorem aptScan_on_tgt_append (tgt o : List Char)
    (htgt : tgt = patStable ∨ tgt = patUnstable) :
    aptScan tgt false (tgt ++ o)
      = (tgt ++ (aptScan tgt false o).1,
         (aptScan tgt false o).2.1 + 1, (aptScan tgt false o).2.2) := by
  rcases htgt with rfl | rfl
  · have hu := patUnstable_not_prefixOf_patStable_append o
    have hs : List.isPrefixOf patStable (patStable ++ o) = true :=
      isPrefixOf_append_self _ _
    rw [aptScan_match_stable patStable (patStable ++ o) hu hs, List.drop_left]
    simp
  · have hu : List.isPrefixOf patUnstable (patUnstable ++ o) = true :=
      isPrefixOf_append_self _ _
    rw [aptScan_match_unstable patUnstable (patUnstable ++ o) hu, List.drop_left]
    simp

/-- Rescanning the scanner's own output changes nothing: every former
match now reads `tgt` and is counted as correct, and no new match is
created, so the output is a fixed point with zero changes. -/
theorem aptScan_rescan (tgt : List Char) (htgt : tgt = patStable ∨ tgt = patUnstable) :
    ∀ (n : Nat) (l : List Char), l.length ≤ n → ∀ (prev : Bool),
      aptScan tgt prev ((aptScan tgt prev l).1)
        = ((aptScan tgt prev l).1,
           (aptScan tgt prev l).2.1 + (aptScan tgt prev l).2.2, 0) := by
  intro n
  induction n with
  | zero =>
    intro l hl prev
    have : l = [] := List.length_eq_zero.mp (Nat.le_zero.mp hl)
    subst this
    rw [aptScan_nil]
    rw [aptScan_nil]
    rfl
  | succ m ih =>
    intro l hl prev
    cases l with
    | nil =>
      rw [aptScan_nil]
      rw [aptScan_nil]
      rfl
    | cons c cs =>
      by_cases hu : (!prev && List.isPrefixOf patUnstable (c :: cs)) = true
      · rcases Bool.and_eq_true_iff.mp hu with ⟨hp, hpre⟩
        have hprev : prev = false := by revert hp; cases prev <;> simp
        subst hprev
        rw [aptScan_cons_unstable tgt c cs hpre]
        have hrestlen : ((c :: cs).drop patUnstable.length).length ≤ m := by
          have hplen : 0 < patUnstable.length := by decide
          simp only [List.length_drop]
          simp only [List.length_cons] at hl ⊢
          omega
        rw [aptScan_on_tgt_append tgt _ htgt,
            ih ((c :: cs).drop patUnstable.length) hrestlen false]
        have hne : patUnstable ≠ patStable := by decide
        rcases htgt with rfl | rfl <;> simp [hne, Prod.mk.injEq] <;> omega
      · by_cases hs : (!prev && List.isPrefixOf patStable (c :: cs)) = true
        · rcases Bool.and_eq_true_iff.mp hs with ⟨hp, hpre⟩
          have hprev : prev = false := by revert hp; cases prev <;> simp
          subst hprev
          have hu' : List.isPrefixOf patUnstable (c :: cs) = false := by
            cases hres : List.isPrefixOf patUnstable (c :: cs)
            · rfl
            · exfalso; apply hu; simp [hres]
          rw [aptScan_cons_stable tgt c cs hu' hpre]
          have hrestlen : ((c :: cs).drop patStable.length).length ≤ m := by
            have hplen : 0 < patStable.length := by decide
            simp only [List.length_drop]
            simp only [List.length_cons] at hl ⊢
            omega
          rw [aptScan_on_tgt_append tgt _ htgt,
              ih ((c :: cs).drop patStable.length) hrestlen false]
          have hne : patStable ≠ patUnstable := by decide
          rcases htgt with rfl | rfl <;> simp [hne, Prod.mk.injEq] <;> omega
        · have hcase : prev = true
              ∨ (List.isPrefixOf patUnstable (c :: cs) = false
                  ∧ List.isPrefixOf patStable (c :: cs) = false) := by
            cases prev
            · right
              constructor
              · cases hres : List.isPrefixOf patUnstable (c :: cs)
                · rfl
                · exfalso; apply hu; simp [hres]
              · cases hres : List.isPrefixOf patStable (c :: cs)
                · rfl
                · exfalso; apply hs; simp [hres]
            · left; rfl
          rw [aptScan_cons_skip tgt prev c cs hcase]
          have hcslen : cs.length ≤ m := by simpa using Nat.le_of_succ_le_succ hl
          have ihcs := ih cs hcslen (isWordChar c)
          -- no new match at the head of the rewritten tail
          have hnomatch : ∀ (P : List Char), P = patUnstable ∨ P = patStable →
              List.isPrefixOf P (c :: cs) = false →
              List.isPrefixOf P (c :: (aptScan tgt (isWordChar c) cs).1) = false := by
            intro P hP hold
            cases hres : List.isPrefixOf P (c :: (aptScan tgt (isWordChar c) cs).1)
            · rfl
            · exfalso
              have hPhead : P = 'h' :: P.drop 1 := by
                rcases hP with rfl | rfl
                · exact patUnstable_head
                · exact patStable_head
              have hPtail : 'h' ∉ P.drop 1 := by
                rcases hP with rfl | rfl
                · exact patUnstable_tail_hfree
                · exact patStable_tail_hfree
              rw [hPhead, isPrefixOf_cons_cons] at hres
              rcases Bool.and_eq_true_iff.mp hres with ⟨hq, hqs⟩
              have htail := aptScan_hfree_prefix tgt htgt m cs hcslen (P.drop 1) hPtail
                (isWordChar c) hqs
              rw [hPhead, isPrefixOf_cons_cons, hq, htail] at hold
              simp at hold
          have hcase' : prev = true
              ∨ (List.isPrefixOf patUnstable (c :: (aptScan tgt (isWordChar c) cs).1) = false
                  ∧ List.isPrefixOf patStable (c :: (aptScan tgt (isWordChar c) cs).1) = false) := by
            rcases hcase with h | ⟨h1, h2⟩
            · left; exact h
            · right
              exact ⟨hnomatch patUnstable (Or.inl rfl) h1, hnomatch patStable (Or.inr rfl) h2⟩
          rw [aptScan_cons_skip tgt prev c _ hcase', ihcs]

/-- The scanner inserts only `tgt` (newline-free for real tracks), so its
output stays newline-free when its input is. -/
theorem aptScan_nl_free (tgt : List Char) (htgtnl : '\n' ∉ tgt) :
    ∀ (n : Nat) (l : List Char), l.length ≤ n → '\n' ∉ l → ∀ (prev : Bool),
      '\n' ∉ (aptScan tgt prev l).1 := by
  intro n
  induction n with
  | zero =>
    intro l hl hnl prev
    have : l = [] := List.length_eq_zero.mp (Nat.le_zero.mp hl)
    subst this
    rw [aptScan_nil]
    simp
  | succ m ih =>
    intro l hl hnl prev
    cases l with
    | nil => rw [aptScan_nil]; simp
    | cons c cs =>
      have hdropfree : ∀ (P : List Char), List.isPrefixOf P (c :: cs) = true →
          '\n' ∉ (c :: cs).drop P.length := by
        intro P hP hmem
        exact hnl ((List.drop_sublist P.length (c :: cs)).mem hmem)
      by_cases hu : (!prev && List.isPrefixOf patUnstable (c :: cs)) = true
      · rcases Bool.and_eq_true_iff.mp hu with ⟨hp, hpre⟩
        have hprev : prev = false := by revert hp; cases prev <;> simp
        subst hprev
        rw [aptScan_cons_unstable tgt c cs hpre]
        intro hmem
        rcases List.mem_append.mp hmem with h | h
        · exact htgtnl h
        · have hplen : 0 < patUnstable.length := by decide
          refine ih ((c :: cs).drop patUnstable.length) ?_ (hdropfree _ hpre) false h
          simp only [List.length_drop]
          simp only [List.length_cons] at hl ⊢
          omega
      · by_cases hs : (!prev && List.isPrefixOf patStable (c :: cs)) = true
        · rcases Bool.and_eq_true_iff.mp hs with ⟨hp, hpre⟩
          have hprev : prev = false := by revert hp; cases prev <;> simp
          subst hprev
          have hu' : List.isPrefixOf patUnstable (c :: cs) = false := by
            cases hres : List.isPrefixOf patUnstable (c :: cs)
            · rfl
            · exfalso; apply hu; simp [hres]
          rw [aptScan_cons_stable tgt c cs hu' hpre]
          intro hmem
          rcases List.mem_append.mp hmem with h | h
          · exact htgtnl h
          · have hplen : 0 < patStable.length := by decide
            refine ih ((c :: cs).drop patStable.length) ?_ (hdropfree _ hpre) false h
            simp only [List.length_drop]
            simp only [List.length_cons] at hl ⊢
            omega
        · have hcase : prev = true
              ∨ (List.isPrefixOf patUnstable (c :: cs) = false
                  ∧ List.isPrefixOf patStable (c :: cs) = false) := by
            cases prev
            · right
              constructor
              · cases hres : List.isPrefixOf patUnstable (c :: cs)
                · rfl
                · exfalso; apply hu; simp [hres]
              · cases hres : List.isPrefixOf patStable (c :: cs)
                · rfl
                · exfalso; apply hs; simp [hres]
            · left; rfl
          rw [aptScan_cons_skip tgt prev c cs hcase]
          intro hmem
          rcases List.mem_cons.mp hmem with h | h
          · exact hnl (h ▸ List.mem_cons_self c cs)
          · exact ih cs (by simpa using Nat.le_of_succ_le_succ hl)
              (fun hx => hnl (List.mem_cons_of_mem c hx)) (isWordChar c) h

/-- If the scanner's output reads as a comment line, so did its input:
inserted text starts with `'h'`, which is neither whitespace nor `'#'`. -/
theorem isCommentLine_of_aptScan (tgt : List Char)
    (htgt : tgt = patStable ∨ tgt = patUnstable) :
    ∀ (n : Nat) (l : List Char), l.length ≤ n → ∀ (prev : Bool),
      isCommentLine ((aptScan tgt prev l).1) = true → isCommentLine l = true := by
  intro n
  induction n with
  | zero =>
    intro l hl prev h
    have : l = [] := List.length_eq_zero.mp (Nat.le_zero.mp hl)
    subst this
    rw [aptScan_nil] at h
    exact h
  | succ m ih =>
    intro l hl prev h
    cases l with
    | nil => rw [aptScan_nil] at h; exact h
    | cons c cs =>
      have htgth : tgt = 'h' :: tgt.drop 1 := by
        rcases htgt with rfl | rfl
        · exact patStable_head
        · exact patUnstable_head
      have hmatch_not_comment : ∀ (o : List Char),
          isCommentLine (tgt ++ o) = false := by
        intro o
        rw [htgth, List.cons_append]
        show isCommentLine ('h' :: (tgt.drop 1 ++ o)) = false
        unfold isCommentLine
        simp [isReSpace]
      by_cases hu : (!prev && List.isPrefixOf patUnstable (c :: cs)) = true
      · rcases Bool.and_eq_true_iff.mp hu with ⟨hp, hpre⟩
        have hprev : prev = false := by revert hp; cases prev <;> simp
        subst hprev
        rw [aptScan_cons_unstable tgt c cs hpre] at h
        rw [hmatch_not_comment] at h
        exact absurd h (by simp)
      · by_cases hs : (!prev && List.isPrefixOf patStable (c :: cs)) = true
        · rcases Bool.and_eq_true_iff.mp hs with ⟨hp, hpre⟩
          have hprev : prev = false := by revert hp; cases prev <;> simp
          subst hprev
          have hu' : List.isPrefixOf patUnstable (c :: cs) = false := by
            cases hres : List.isPrefixOf patUnstable (c :: cs)
            · rfl
            · exfalso; apply hu; simp [hres]
          rw [aptScan_cons_stable tgt c cs hu' hpre] at h
          rw [hmatch_not_comment] at h
          exact absurd h (by simp)
        · have hcase : prev = true
              ∨ (List.isPrefixOf patUnstable (c :: cs) = false
                  ∧ List.isPrefixOf patStable (c :: cs) = false) := by
            cases prev
            · right
              constructor
              · cases hres : List.isPrefixOf patUnstable (c :: cs)
                · rfl
                · exfalso; apply hu; simp [hres]
              · cases hres : List.isPrefixOf patStable (c :: cs)
                · rfl
                · exfalso; apply hs; simp [hres]
            · left; rfl
          rw [aptScan_cons_skip tgt prev c cs hcase] at h
          unfold isCommentLine at h ⊢
          by_cases hws : isReSpace c = true
          · rw [if_pos hws] at h ⊢
            exact ih cs (by simpa using Nat.le_of_succ_le_succ hl) (isWordChar c) h
          · rw [if_neg hws] at h ⊢
            exact h

/-- Appending a character cannot destroy comment-ness. -/
theorem isCommentLine_append_singleton (l : List Char) (c : Char)
    (h : isCommentLine l = true) : isCommentLine (l ++ [c]) = true := by
  induction l with
  | nil => exact absurd h (by simp [isCommentLine])
  | cons a as ih =>
    have hcl : ∀ (x : Char) (xs : List Char),
        isCommentLine (x :: xs) = if isReSpace x = true then isCommentLine xs else x == '#' :=
      fun x xs => rfl
    rw [List.cons_append, hcl] at *
    by_cases hws : isReSpace a = true
    · rw [if_pos hws] at h ⊢
      exact ih h
    · rw [if_neg hws] at h ⊢
      exact h

theorem nat_sum_all_zero (l : List Nat) (h : l.sum = 0) : ∀ x ∈ l, x = 0 := by
  induction l with
  | nil => intro x hx; simp at hx
  | cons a as ih =>
    rw [List.sum_cons] at h
    intro x hx
    rcases List.mem_cons.mp hx with rfl | hmem
    · omega
    · exact ih (by omega) x hmem

theorem nat_sum_mem_le (l : List Nat) (x : Nat) (h : x ∈ l) : x ≤ l.sum := by
  induction l with
  | nil => simp at h
  | cons a as ih =>
    rw [List.sum_cons]
    rcases List.mem_cons.mp h with rfl | hmem
    · omega
    · have := ih hmem; omega

theorem trackURLOf_stable : trackURLOf (chars "stable") = patStable := by decide

theorem trackURLOf_unstable : trackURLOf (chars "unstable") = patUnstable := by decide

theorem nl_not_mem_patStable : '\n' ∉ patStable := by decide

theorem nl_not_mem_patUnstable : '\n' ∉ patUnstable := by decide

/-- Lines emitted by one apt rewriting pass are newline-free. -/
theorem aptOuts_lines_nl_free (dst was : List Char)
    (htgt : trackURLOf dst = patStable ∨ trackURLOf dst = patUnstable) :
    ∀ l ∈ (aptOuts dst was).map (fun p => p.1), '\n' ∉ l := by
  intro l hl
  unfold aptOuts at hl
  rw [List.map_map] at hl
  rcases List.mem_map.mp hl with ⟨t, ht, rfl⟩
  have htfree : '\n' ∉ t :=
    (goScanLines_token_props was.length was (Nat.le_refl _) t ht).1
  show '\n' ∉ (aptProcessLine (trackURLOf dst) t).1
  unfold aptProcessLine
  split
  · exact htfree
  · have htgtnl : '\n' ∉ trackURLOf dst := by
      rcases htgt with h | h <;> rw [h]
      · exact nl_not_mem_patStable
      · exact nl_not_mem_patUnstable
    exact aptScan_nl_free (trackURLOf dst) htgtnl t.length t (Nat.le_refl _) htfree false

/-- Idempotence of the apt rewriter for the two real tracks. -/
theorem apt_rewrite_idempotent (dst was out : List Char)
    (hdst : dst = chars "stable" ∨ dst = chars "unstable")
    (h : updateDebianAptSourcesListBytes was dst = Except.ok out) :
    updateDebianAptSourcesListBytes out dst = Except.ok out := by
  have htgt : trackURLOf dst = patStable ∨ trackURLOf dst = patUnstable := by
    rcases hdst with rfl | rfl
    · exact Or.inl trackURLOf_stable
    · exact Or.inr trackURLOf_unstable
  by_cases hc1 : aptCorrectCount dst was ≠ 0
      ∨ (aptChangeCount dst was = 1 ∧ goTrimSpace was = goTrimSpace (aptBuf dst was))
  · -- "unchanged or close enough": the function returned its input
    rw [updateDebianAptSourcesListBytes, if_pos hc1] at h
    injection h with h
    subst h
    rw [updateDebianAptSourcesListBytes, if_pos hc1]
  · rw [updateDebianAptSourcesListBytes, if_neg hc1] at h
    by_cases hc2 : aptChangeCount dst was ≠ 1
    · rw [if_pos hc2] at h
      exact absurd h (by simp)
    · rw [if_neg hc2] at h
      injection h with h
      subst h
      push_neg at hc2
      push_neg at hc1
      have hcorr0 : aptCorrectCount dst was = 0 := hc1.1
      -- the second pass finds the one rewritten URL already correct
      have hlines2 : goScanLines (aptBuf dst was)
          = ((aptOuts dst was).map (fun p => p.1)).map dropCR := by
        unfold aptBuf
        exact goScanLines_unlines _ (aptOuts_lines_nl_free dst was htgt)
      -- locate the changed line
      have hex : ∃ p ∈ aptOuts dst was, p.2.2 ≠ 0 := by
        by_contra hall
        push_neg at hall
        have : aptChangeCount dst was = 0 := by
          unfold aptChangeCount
          have := nat_sum_all_zero ((aptOuts dst was).map (fun p => p.2.2))
          by_cases hz : ((aptOuts dst was).map (fun p => p.2.2)).sum = 0
          · exact hz
          · exfalso
            apply hz
            rw [List.sum_eq_zero_iff]
            intro x hx
            rcases List.mem_map.mp hx with ⟨p, hp, rfl⟩
            exact hall p hp
        omega
      rcases hex with ⟨p, hp, hch⟩
      rcases List.mem_map.mp hp with ⟨t, ht, hpt⟩
      have hnotcomment : isCommentLine t = false := by
        cases hres : isCommentLine t
        · rfl
        · exfalso
          apply hch
          rw [← hpt]
          unfold aptProcessLine
          rw [if_pos hres]
      have hpt' : p = aptScan (trackURLOf dst) false t := by
        rw [← hpt]
        unfold aptProcessLine
        rw [if_neg (by simp [hnotcomment])]
      subst hpt'
      have hall0 : ∀ x ∈ (aptOuts dst was).map (fun q => q.2.1), x = 0 := by
        apply nat_sum_all_zero
        exact hcorr0
      have hnc0 : (aptScan (trackURLOf dst) false t).2.1 = 0 :=
        hall0 _ (List.mem_map_of_mem (fun q => q.2.1) hp)
      have hrescan := aptScan_rescan (trackURLOf dst) htgt t.length t (Nat.le_refl _) false
      -- the rewritten line, rescanned after the round trip through the buffer
      have hkey : (aptScan (trackURLOf dst) false (dropCR (aptScan (trackURLOf dst) false t).1)).2.1
          = (aptScan (trackURLOf dst) false t).2.1 + (aptScan (trackURLOf dst) false t).2.2 := by
        rcases dropCR_cases (aptScan (trackURLOf dst) false t).1 with hid | hsplit
        · rw [hid, hrescan]
        · have hcr := aptScan_append_cr (trackURLOf dst)
            (dropCR (aptScan (trackURLOf dst) false t).1).length
            (dropCR (aptScan (trackURLOf dst) false t).1) (Nat.le_refl _) false
          rw [← hsplit, hrescan] at hcr
          have := congrArg (fun q => q.2.1) hcr
          simpa using this.symm
      have hnc2 : isCommentLine (dropCR (aptScan (trackURLOf dst) false t).1) = false := by
        cases hres : isCommentLine (dropCR (aptScan (trackURLOf dst) false t).1)
        · rfl
        · exfalso
          have hco : isCommentLine (aptScan (trackURLOf dst) false t).1 = true := by
            rcases dropCR_cases (aptScan (trackURLOf dst) false t).1 with hid | hsplit
            · rw [← hid]; exact hres
            · rw [hsplit]; exact isCommentLine_append_singleton _ '\r' hres
          have := isCommentLine_of_aptScan (trackURLOf dst) htgt t.length t
            (Nat.le_refl _) false hco
          rw [hnotcomment] at this
          exact Bool.false_ne_true this
      have hmem2 : dropCR (aptScan (trackURLOf dst) false t).1
          ∈ goScanLines (aptBuf dst was) := by
        rw [hlines2]
        exact List.mem_map_of_mem dropCR (List.mem_map_of_mem (fun q => q.1) hp)
      have hge : (aptScan (trackURLOf dst) false t).2.1 + (aptScan (trackURLOf dst) false t).2.2
          ≤ aptCorrectCount dst (aptBuf dst was) := by
        unfold aptCorrectCount aptOuts
        have helem : (aptProcessLine (trackURLOf dst)
            (dropCR (aptScan (trackURLOf dst) false t).1)).2.1
            = (aptScan (trackURLOf dst) false t).2.1 + (aptScan (trackURLOf dst) false t).2.2 := by
          unfold aptProcessLine
          rw [if_neg (by simp [hnc2])]
          exact hkey
        rw [← helem]
        apply nat_sum_mem_le
        exact List.mem_map_of_mem (fun q => q.2.1)
          (List.mem_map_of_mem (aptProcessLine (trackURLOf dst)) hmem2)
      have hfinal : aptCorrectCount dst (aptBuf dst was) ≠ 0 := by
        have : (aptScan (trackURLOf dst) false t).2.2 ≠ 0 := hch
        omega
      rw [updateDebianAptSourcesListBytes, if_pos (Or.inl hfinal)]

theorem isPrefixOf_append_slash (x rest : List Char) :
    List.isPrefixOf (x ++ ['/']) (x ++ ('/' :: rest)) = true := by
  rw [show (x ++ ('/' :: rest)) = (x ++ ['/']) ++ rest by simp]
  exact isPrefixOf_append_self _ _

/-- Rewriting an already-rewritten `baseurl=`/`gpgkey=` line changes
nothing (for the two real tracks). -/
theorem yumURLRewriteLine_fix_baseurl (dst rest : List Char)
    (hdst : dst = chars "stable" ∨ dst = chars "unstable") :
    yumURLRewriteLine dst (chars "baseurl=https://pkgs.tailscale.com/" ++ (dst ++ ('/' :: rest)))
      = chars "baseurl=https://pkgs.tailscale.com/" ++ (dst ++ ('/' :: rest)) := by
  rcases hdst with rfl | rfl
  · -- dst = "stable"
    have hc1 : List.isPrefixOf (chars "baseurl=https://pkgs.tailscale.com/unstable/")
        (chars "baseurl=https://pkgs.tailscale.com/" ++ (chars "stable" ++ ('/' :: rest)))
        = false := by
      rw [show chars "baseurl=https://pkgs.tailscale.com/" ++ (chars "stable" ++ ('/' :: rest))
          = chars "baseurl=https://pkgs.tailscale.com/stable" ++ ('/' :: rest) from rfl]
      exact isPrefixOf_append_eq_false_of_ne_at _ _ _ 35 (by decide) (by decide) (by decide)
    have hc2 : List.isPrefixOf (chars "baseurl=https://pkgs.tailscale.com/stable/")
        (chars "baseurl=https://pkgs.tailscale.com/" ++ (chars "stable" ++ ('/' :: rest)))
        = true := by
      rw [show chars "baseurl=https://pkgs.tailscale.com/" ++ (chars "stable" ++ ('/' :: rest))
          = chars "baseurl=https://pkgs.tailscale.com/stable" ++ ('/' :: rest) from rfl]
      exact isPrefixOf_append_slash (chars "baseurl=https://pkgs.tailscale.com/stable") rest
    have hdrop : (chars "baseurl=https://pkgs.tailscale.com/"
        ++ (chars "stable" ++ ('/' :: rest))).drop
          (chars "baseurl=https://pkgs.tailscale.com/stable/").length = rest := by
      rw [show chars "baseurl=https://pkgs.tailscale.com/" ++ (chars "stable" ++ ('/' :: rest))
          = chars "baseurl=https://pkgs.tailscale.com/stable/" ++ rest from rfl]
      exact List.drop_left _ _
    rw [yumURLRewriteLine, if_neg (by simp [hc1]), if_pos (by simp [hc2]), hdrop]
    rfl
  · -- dst = "unstable"
    have hc1 : List.isPrefixOf (chars "baseurl=https://pkgs.tailscale.com/unstable/")
        (chars "baseurl=https://pkgs.tailscale.com/" ++ (chars "unstable" ++ ('/' :: rest)))
        = true := by
      rw [show chars "baseurl=https://pkgs.tailscale.com/" ++ (chars "unstable" ++ ('/' :: rest))
          = chars "baseurl=https://pkgs.tailscale.com/unstable" ++ ('/' :: rest) from rfl]
      exact isPrefixOf_append_slash (chars "baseurl=https://pkgs.tailscale.com/unstable") rest
    have hdrop : (chars "baseurl=https://pkgs.tailscale.com/"
        ++ (chars "unstable" ++ ('/' :: rest))).drop
          (chars "baseurl=https://pkgs.tailscale.com/unstable/").length = rest := by
      rw [show chars "baseurl=https://pkgs.tailscale.com/" ++ (chars "unstable" ++ ('/' :: rest))
          = chars "baseurl=https://pkgs.tailscale.com/unstable/" ++ rest from rfl]
      exact List.drop_left _ _
    rw [yumURLRewriteLine, if_pos (by simp [hc1]), hdrop]
    rfl

theorem yumURLRewriteLine_fix_gpgkey (dst rest : List Char)
    (hdst : dst = chars "stable" ∨ dst = chars "unstable") :
    yumURLRewriteLine dst (chars "gpgkey=https://pkgs.tailscale.com/" ++ (dst ++ ('/' :: rest)))
      = chars "gpgkey=https://pkgs.tailscale.com/" ++ (dst ++ ('/' :: rest)) := by
  have hgb1 : ∀ (y : List Char),
      List.isPrefixOf (chars "baseurl=https://pkgs.tailscale.com/unstable/")
        (chars "gpgkey=https://pkgs.tailscale.com/" ++ y) = false := fun y =>
    isPrefixOf_append_eq_false_of_ne_at _ _ _ 0 (by decide) (by decide) (by decide)
  have hgb2 : ∀ (y : List Char),
      List.isPrefixOf (chars "baseurl=https://pkgs.tailscale.com/stable/")
        (chars "gpgkey=https://pkgs.tailscale.com/" ++ y) = false := fun y =>
    isPrefixOf_append_eq_false_of_ne_at _ _ _ 0 (by decide) (by decide) (by decide)
  rcases hdst with rfl | rfl
  · have hc3 : List.isPrefixOf (chars "gpgkey=https://pkgs.tailscale.com/unstable/")
        (chars "gpgkey=https://pkgs.tailscale.com/" ++ (chars "stable" ++ ('/' :: rest)))
        = false := by
      rw [show chars "gpgkey=https://pkgs.tailscale.com/" ++ (chars "stable" ++ ('/' :: rest))
          = chars "gpgkey=https://pkgs.tailscale.com/stable" ++ ('/' :: rest) from rfl]
      exact isPrefixOf_append_eq_false_of_ne_at _ _ _ 34 (by decide) (by decide) (by decide)
    have hc4 : List.isPrefixOf (chars "gpgkey=https://pkgs.tailscale.com/stable/")
        (chars "gpgkey=https://pkgs.tailscale.com/" ++ (chars "stable" ++ ('/' :: rest)))
        = true := by
      rw [show chars "gpgkey=https://pkgs.tailscale.com/" ++ (chars "stable" ++ ('/' :: rest))
          = chars "gpgkey=https://pkgs.tailscale.com/stable" ++ ('/' :: rest) from rfl]
      exact isPrefixOf_append_slash (chars "gpgkey=https://pkgs.tailscale.com/stable") rest
    have hdrop : (chars "gpgkey=https://pkgs.tailscale.com/"
        ++ (chars "stable" ++ ('/' :: rest))).drop
          (chars "gpgkey=https://pkgs.tailscale.com/stable/").length = rest := by
      rw [show chars "gpgkey=https://pkgs.tailscale.com/" ++ (chars "stable" ++ ('/' :: rest))
          = chars "gpgkey=https://pkgs.tailscale.com/stable/" ++ rest from rfl]
      exact List.drop_left _ _
    rw [yumURLRewriteLine, if_neg (by simp [hgb1]), if_neg (by simp [hgb2]),
        if_neg (by simp [hc3]), if_pos (by simp [hc4]), hdrop]
    rfl
  · have hc3 : List.isPrefixOf (chars "gpgkey=https://pkgs.tailscale.com/unstable/")
        (chars "gpgkey=https://pkgs.tailscale.com/" ++ (chars "unstable" ++ ('/' :: rest)))
        = true := by
      rw [show chars "gpgkey=https://pkgs.tailscale.com/" ++ (chars "unstable" ++ ('/' :: rest))
          = chars "gpgkey=https://pkgs.tailscale.com/unstable" ++ ('/' :: rest) from rfl]
      exact isPrefixOf_append_slash (chars "gpgkey=https://pkgs.tailscale.com/unstable") rest
    have hdrop : (chars "gpgkey=https://pkgs.tailscale.com/"
        ++ (chars "unstable" ++ ('/' :: rest))).drop
          (chars "gpgkey=https://pkgs.tailscale.com/unstable/").length = rest := by
      rw [show chars "gpgkey=https://pkgs.tailscale.com/" ++ (chars "unstable" ++ ('/' :: rest))
          = chars "gpgkey=https://pkgs.tailscale.com/unstable/" ++ rest from rfl]
      exact List.drop_left _ _
    rw [yumURLRewriteLine, if_neg (by simp [hgb1]), if_neg (by simp [hgb2]),
        if_pos (by simp [hc3]), hdrop]
    rfl

theorem yumLineEmit_baseurl_line (dst y : List Char) :
    yumLineEmit dst (chars "baseurl=https://pkgs.tailscale.com/" ++ y)
      = some (yumURLRewriteLine dst (chars "baseurl=https://pkgs.tailscale.com/" ++ y)) := by
  rw [yumLineEmit]
  have hhead : (chars "baseurl=https://pkgs.tailscale.com/" ++ y).head? = some 'b' := rfl
  rw [if_neg (by simp [hhead])]
  have hn : List.isPrefixOf (chars "name=")
      (chars "baseurl=https://pkgs.tailscale.com/" ++ y) = false :=
    isPrefixOf_append_eq_false_of_ne_at _ _ _ 0 (by decide) (by decide) (by decide)
  rw [if_neg (by simp [hn])]
  have hbp : List.isPrefixOf (chars "baseurl=")
      (chars "baseurl=https://pkgs.tailscale.com/" ++ y) = true := by
    rw [show chars "baseurl=https://pkgs.tailscale.com/" ++ y
        = chars "baseurl=" ++ (chars "https://pkgs.tailscale.com/" ++ y) from rfl]
    exact isPrefixOf_append_self _ _
  rw [if_pos (by simp [hbp])]

theorem yumLineEmit_gpgkey_line (dst y : List Char) :
    yumLineEmit dst (chars "gpgkey=https://pkgs.tailscale.com/" ++ y)
      = some (yumURLRewriteLine dst (chars "gpgkey=https://pkgs.tailscale.com/" ++ y)) := by
  rw [yumLineEmit]
  have hhead : (chars "gpgkey=https://pkgs.tailscale.com/" ++ y).head? = some 'g' := rfl
  rw [if_neg (by simp [hhead])]
  have hn : List.isPrefixOf (chars "name=")
      (chars "gpgkey=https://pkgs.tailscale.com/" ++ y) = false :=
    isPrefixOf_append_eq_false_of_ne_at _ _ _ 0 (by decide) (by decide) (by decide)
  rw [if_neg (by simp [hn])]
  have hgp : List.isPrefixOf (chars "gpgkey=")
      (chars "gpgkey=https://pkgs.tailscale.com/" ++ y) = true := by
    rw [show chars "gpgkey=https://pkgs.tailscale.com/" ++ y
        = chars "gpgkey=" ++ (chars "https://pkgs.tailscale.com/" ++ y) from rfl]
    exact isPrefixOf_append_self _ _
  rw [if_pos (by simp [hgp])]

/-- Lines emitted by `updateYUMRepoTrack` are fixed points of the
per-line emission (for the two real tracks). -/
theorem yumLineEmit_fix (dst l l' : List Char)
    (hdst : dst = chars "stable" ∨ dst = chars "unstable")
    (h : yumLineEmit dst l = some l') :
    yumLineEmit dst l' = some l' := by
  rw [yumLineEmit] at h
  by_cases hb : l.head? = some '['
  · rw [if_pos hb] at h
    by_cases hp : List.isPrefixOf (chars "[tailscale-") l = true
    · rw [if_pos (by simp [hp])] at h
      injection h with h
      subst h
      rw [yumLineEmit]
      have hhead : (chars "[tailscale-" ++ dst ++ [']']).head? = some '[' := rfl
      rw [if_pos hhead]
      have hpre : List.isPrefixOf (chars "[tailscale-")
          (chars "[tailscale-" ++ dst ++ [']']) = true := isPrefixOf_append_self _ _
      rw [if_pos (by simp [hpre])]
    · rw [if_neg (by simp [Bool.not_eq_true] at hp ⊢; exact hp)] at h
      exact absurd h (by simp)
  · rw [if_neg hb] at h
    by_cases hn : List.isPrefixOf (chars "name=") l = true
    · rw [if_pos (by simp [hn])] at h
      injection h with h
      subst h
      rw [yumLineEmit]
      have hhead : (chars "name=Tailscale " ++ dst).head? = some 'n' := rfl
      rw [if_neg (by simp [hhead])]
      have hpre : List.isPrefixOf (chars "name=")
          (chars "name=Tailscale " ++ dst) = true := by
        rw [show chars "name=Tailscale " ++ dst
            = chars "name=" ++ (chars "Tailscale " ++ dst) from rfl]
        exact isPrefixOf_append_self _ _
      rw [if_pos (by simp [hpre])]
    · rw [if_neg (by simp [Bool.not_eq_true] at hn ⊢; exact hn)] at h
      by_cases hu : (List.isPrefixOf (chars "baseurl=") l
          || List.isPrefixOf (chars "gpgkey=") l) = true
      · rw [if_pos (by simp at hu ⊢; exact hu)] at h
        injection h with h
        subst h
        rw [yumURLRewriteLine]
        by_cases hc1 : List.isPrefixOf (chars "baseurl=https://pkgs.tailscale.com/unstable/") l
            = true
        · rw [if_pos (by simp [hc1])]
          have hl := eq_append_drop_of_isPrefixOf _ _ hc1
          have hform : chars "baseurl=https://pkgs.tailscale.com/" ++ dst ++ ['/']
              ++ l.drop (chars "baseurl=https://pkgs.tailscale.com/unstable/").length
              = chars "baseurl=https://pkgs.tailscale.com/"
                ++ (dst ++ ('/' :: l.drop (chars "baseurl=https://pkgs.tailscale.com/unstable/").length)) := by simp
          rw [hform, yumLineEmit_baseurl_line dst _,
              yumURLRewriteLine_fix_baseurl dst _ hdst]
        · rw [if_neg (by simp [Bool.not_eq_true] at hc1 ⊢; exact hc1)]
          by_cases hc2 : List.isPrefixOf (chars "baseurl=https://pkgs.tailscale.com/stable/") l
              = true
          · rw [if_pos (by simp [hc2])]
            have hform : chars "baseurl=https://pkgs.tailscale.com/" ++ dst ++ ['/']
                ++ l.drop (chars "baseurl=https://pkgs.tailscale.com/stable/").length
                = chars "baseurl=https://pkgs.tailscale.com/"
                  ++ (dst ++ ('/' :: l.drop (chars "baseurl=https://pkgs.tailscale.com/stable/").length)) := by simp
            rw [hform, yumLineEmit_baseurl_line dst _,
                yumURLRewriteLine_fix_baseurl dst _ hdst]
          · rw [if_neg (by simp [Bool.not_eq_true] at hc2 ⊢; exact hc2)]
            by_cases hc3 : List.isPrefixOf (chars "gpgkey=https://pkgs.tailscale.com/unstable/") l
                = true
            · rw [if_pos (by simp [hc3])]
              have hform : chars "gpgkey=https://pkgs.tailscale.com/" ++ dst ++ ['/']
                  ++ l.drop (chars "gpgkey=https://pkgs.tailscale.com/unstable/").length
                  = chars "gpgkey=https://pkgs.tailscale.com/"
                    ++ (dst ++ ('/' :: l.drop (chars "gpgkey=https://pkgs.tailscale.com/unstable/").length)) := by simp
              rw [hform, yumLineEmit_gpgkey_line dst _,
                  yumURLRewriteLine_fix_gpgkey dst _ hdst]
            · rw [if_neg (by simp [Bool.not_eq_true] at hc3 ⊢; exact hc3)]
              by_cases hc4 : List.isPrefixOf (chars "gpgkey=https://pkgs.tailscale.com/stable/") l
                  = true
              · rw [if_pos (by simp [hc4])]
                have hform : chars "gpgkey=https://pkgs.tailscale.com/" ++ dst ++ ['/']
                    ++ l.drop (chars "gpgkey=https://pkgs.tailscale.com/stable/").length
                    = chars "gpgkey=https://pkgs.tailscale.com/"
                      ++ (dst ++ ('/' :: l.drop (chars "gpgkey=https://pkgs.tailscale.com/stable/").length)) := by simp
                rw [hform, yumLineEmit_gpgkey_line dst _,
                    yumURLRewriteLine_fix_gpgkey dst _ hdst]
              · rw [if_neg (by simp [Bool.not_eq_true] at hc4 ⊢; exact hc4)]
                -- no URL match: the line is unchanged and re-emits itself
                rw [yumLineEmit, if_neg hb]
                rw [if_neg (by simp [Bool.not_eq_true] at hn ⊢; exact hn)]
                rw [if_pos (by simp at hu ⊢; exact hu), yumURLRewriteLine]
                rw [if_neg (by simp [Bool.not_eq_true] at hc1 ⊢; exact hc1)]
                rw [if_neg (by simp [Bool.not_eq_true] at hc2 ⊢; exact hc2)]
                rw [if_neg (by simp [Bool.not_eq_true] at hc3 ⊢; exact hc3)]
                rw [if_neg (by simp [Bool.not_eq_true] at hc4 ⊢; exact hc4)]
      · rw [if_neg (by simp at hu ⊢; exact hu)] at h
        injection h with h
        subst h
        rw [yumLineEmit, if_neg hb]
        rw [if_neg (by simp [Bool.not_eq_true] at hn ⊢; exact hn)]
        rw [if_neg (by simp at hu ⊢; exact hu)]

theorem mapM_option_mem (f : List Char → Option (List Char)) :
    ∀ (l : List (List Char)) (ys : List (List Char)), l.mapM f = some ys →
      ∀ y ∈ ys, ∃ x ∈ l, f x = some y := by
  intro l
  induction l with
  | nil =>
    intro ys h y hy
    rw [List.mapM_nil] at h
    injection h with h
    subst h
    simp at hy
  | cons a as ih =>
    intro ys h y hy
    rw [List.mapM_cons] at h
    cases hfa : f a with
    | none => rw [hfa] at h; simp at h
    | some b =>
      rw [hfa] at h
      cases hrest : as.mapM f with
      | none => rw [hrest] at h; simp at h
      | some bs =>
        rw [hrest] at h
        simp only [Option.pure_def, Option.bind_eq_bind, Option.some_bind] at h
        injection h with h
        subst h
        rcases List.mem_cons.mp hy with rfl | hmem
        · exact ⟨a, List.mem_cons_self a as, hfa⟩
        · rcases ih bs hrest y hmem with ⟨x, hx, hfx⟩
          exact ⟨x, List.mem_cons_of_mem a hx, hfx⟩

theorem mapM_option_id (f : List Char → Option (List Char)) :
    ∀ (l : List (List Char)), (∀ x ∈ l, f x = some x) → l.mapM f = some l := by
  intro l
  induction l with
  | nil => intro _; rw [List.mapM_nil]; rfl
  | cons a as ih =>
    intro hall
    rw [List.mapM_cons, hall a (List.mem_cons_self a as),
      ih (fun x hx => hall x (List.mem_cons_of_mem a hx))]
    rfl

/-- Characters of a line emitted by the yum rewriter either come from the
input line, from the track name, or from the fixed template text. -/
theorem yumLineEmit_mem (dst l l' : List Char) (c : Char)
    (h : yumLineEmit dst l = some l') (hmem : c ∈ l')
    (hl : c ∉ l) (hdstm : c ∉ dst)
    (h1 : c ∉ chars "[tailscale-") (h2 : c ≠ ']')
    (h3 : c ∉ chars "name=Tailscale ")
    (h4 : c ∉ chars "baseurl=https://pkgs.tailscale.com/")
    (h5 : c ∉ chars "gpgkey=https://pkgs.tailscale.com/") (h6 : c ≠ '/') :
    False := by
  rw [yumLineEmit] at h
  by_cases hb : l.head? = some '['
  · rw [if_pos hb] at h
    by_cases hp : List.isPrefixOf (chars "[tailscale-") l = true
    · rw [if_pos (by simp [hp])] at h
      injection h with h
      subst h
      rcases List.mem_append.mp hmem with hc | hc
      · rcases List.mem_append.mp hc with hc' | hc'
        · exact h1 hc'
        · exact hdstm hc'
      · exact h2 (List.mem_singleton.mp hc)
    · rw [if_neg (by simp [Bool.not_eq_true] at hp ⊢; exact hp)] at h
      exact absurd h (by simp)
  · rw [if_neg hb] at h
    by_cases hn : List.isPrefixOf (chars "name=") l = true
    · rw [if_pos (by simp [hn])] at h
      injection h with h
      subst h
      rcases List.mem_append.mp hmem with hc | hc
      · exact h3 hc
      · exact hdstm hc
    · rw [if_neg (by simp [Bool.not_eq_true] at hn ⊢; exact hn)] at h
      by_cases hu : (List.isPrefixOf (chars "baseurl=") l
          || List.isPrefixOf (chars "gpgkey=") l) = true
      · rw [if_pos (by simp at hu ⊢; exact hu)] at h
        injection h with h
        subst h
        rw [yumURLRewriteLine] at hmem
        have hdropmem : ∀ (k : Nat), c ∉ l.drop k := by
          intro k hk
          exact hl ((List.drop_sublist k l).mem hk)
        have hurl : ∀ (key pat : List Char), c ∉ key →
            c ∈ key ++ dst ++ ['/'] ++ l.drop pat.length → False := by
          intro key pat hkey hc
          rcases List.mem_append.mp hc with hc' | hc'
          · rcases List.mem_append.mp hc' with hc'' | hc''
            · rcases List.mem_append.mp hc'' with hc3 | hc3
              · exact hkey hc3
              · exact hdstm hc3
            · exact h6 (List.mem_singleton.mp hc'')
          · exact hdropmem _ hc'
        split at hmem
        · exact hurl _ _ h4 hmem
        · split at hmem
          · exact hurl _ _ h4 hmem
          · split at hmem
            · exact hurl _ _ h5 hmem
            · split at hmem
              · exact hurl _ _ h5 hmem
              · exact hl hmem
      · rw [if_neg (by simp at hu ⊢; exact hu)] at h
        injection h with h
        subst h
        exact hl hmem

/-- Idempotence of the yum rewriting core on carriage-return-free input,
for the two real tracks. -/
theorem yum_rewrite_idempotent (dst was out : List Char)
    (hdst : dst = chars "stable" ∨ dst = chars "unstable")
    (hcr : '\r' ∉ was)
    (h : yumNewContent dst was = some out) :
    yumNewContent dst out = some out := by
  unfold yumNewContent at h
  cases houts : (goScanLines was).mapM (yumLineEmit dst) with
  | none => rw [houts] at h; simp at h
  | some outs =>
    rw [houts] at h
    rw [show Option.map unlines (some outs) = some (unlines outs) from rfl] at h
    injection h with h
    subst h
    have hfix : ∀ l' ∈ outs, yumLineEmit dst l' = some l' := by
      intro l' hl'
      rcases mapM_option_mem (yumLineEmit dst) _ _ houts l' hl' with ⟨t, ht, hemit⟩
      exact yumLineEmit_fix dst t l' hdst hemit
    have hdst_nl : '\n' ∉ dst := by
      rcases hdst with rfl | rfl <;> decide
    have hdst_cr : '\r' ∉ dst := by
      rcases hdst with rfl | rfl <;> decide
    have hclean : ∀ l' ∈ outs, '\n' ∉ l' ∧ '\r' ∉ l' := by
      intro l' hl'
      rcases mapM_option_mem (yumLineEmit dst) _ _ houts l' hl' with ⟨t, ht, hemit⟩
      have htprops := goScanLines_token_props was.length was (Nat.le_refl _) t ht
      constructor
      · intro hc
        exact yumLineEmit_mem dst t l' '\n' hemit hc htprops.1 hdst_nl
          (by decide) (by decide) (by decide) (by decide) (by decide) (by decide)
      · intro hc
        have htcr : '\r' ∉ t := fun hx => hcr (htprops.2 '\r' hx)
        exact yumLineEmit_mem dst t l' '\r' hemit hc htcr hdst_cr
          (by decide) (by decide) (by decide) (by decide) (by decide) (by decide)
    have hscan2 : goScanLines (unlines outs) = outs := by
      rw [goScanLines_unlines outs (fun l hl => (hclean l hl).1)]
      have : ∀ l' ∈ outs, dropCR l' = l' := fun l' hl' =>
        dropCR_eq_self_of_not_mem l' (hclean l' hl').2
      calc outs.map dropCR = outs.map id := List.map_congr_left this
        _ = outs := List.map_id outs
    unfold yumNewContent
    rw [hscan2, mapM_option_id (yumLineEmit dst) outs hfix]
    rfl

/-! ## Downloader and verifier: `downloadURLToFile`

The HTTP transfers are abstracted into an environment holding the values
the code observes: the HEAD status and content length, the checksum
response status and body, and the artifact GET status and body bytes.
The SHA-256 function itself lives in `crypto/sha256`, outside this
repository, and is passed as a parameter. -/

/-- Value of one hexadecimal digit, as accepted by `encoding/hex`. -/
def hexDigitVal (c : Char) : Option Nat :=
  if '0' ≤ c ∧ c ≤ '9' then some (c.toNat - 48)
  else if 'a' ≤ c ∧ c ≤ 'f' then some (c.toNat - 87)
  else if 'A' ≤ c ∧ c ≤ 'F' then some (c.toNat - 55)
  else none

/-- `hex.DecodeString`: pairs of hex digits; odd length or a non-hex
character is an error. -/
def goHexDecode : List Char → Option (List Nat)
  | [] => some []
  | [_] => none
  | a :: b :: rest => do
    let ha ← hexDigitVal a
    let hb ← hexDigitVal b
    let r ← goHexDecode rest
    pure ((16 * ha + hb) :: r)

/-- The observations `downloadURLToFile` makes of the network. -/
structure DLEnv where
  headStatus : Nat
  contentLength : Int
  hashStatus : Nat
  hashBody : List Char
  dlStatus : Nat
  dlBody : List Nat
deriving DecidableEq

inductive DLError where
  | headStatusBad
  | contentLengthBad
  | hashRespBad
  | hashHexBad
  | getStatusBad
  | lengthMismatch
  | hashMismatch
deriving DecidableEq

/-- The expected digest: at most 100 bytes of the checksum body are read
(`io.LimitReader(hashRes.Body, 100)`), trimmed and hex-decoded. -/
def dlWantHash (env : DLEnv) : Option (List Nat) :=
  goHexDecode (goTrimSpace (env.hashBody.take 100))

/-- The bytes actually streamed to disk:
`io.Copy(..., io.LimitReader(dlRes.Body, res.ContentLength))`. -/
def dlStreamed (env : DLEnv) : List Nat :=
  env.dlBody.take env.contentLength.toNat

/-- `downloadURLToFile`, with `sha256` as an abstract hash parameter.
The third test mirrors the source line
`if res.StatusCode != http.StatusOK` after the checksum fetch, which
checks `res` (the HEAD response, already known to be 200) instead of
`hashRes`: `env.hashStatus` is never consulted. -/
def downloadURLToFile (sha256 : List Nat → List Nat) (env : DLEnv) :
    Except DLError Unit :=
  if env.headStatus ≠ 200 then Except.error DLError.headStatusBad
  else if env.contentLength ≤ 0 then Except.error DLError.contentLengthBad
  else if env.headStatus ≠ 200 then Except.error DLError.hashRespBad
  else
    match dlWantHash env with
    | none => Except.error DLError.hashHexBad
    | some want =>
      if env.dlStatus ≠ 200 then Except.error DLError.getStatusBad
      else if (dlStreamed env).length ≠ env.contentLength.toNat then
        Except.error DLError.lengthMismatch
      else if sha256 (dlStreamed env) ≠ want then Except.error DLError.hashMismatch
      else Except.ok ()

/-! ## Confirmation gate and the Fedora-like executor -/

/-- ASCII `strings.ToLower`. -/
def goToLower (l : List Char) : List Char :=
  l.map fun c => if 'A' ≤ c ∧ c ≤ 'Z' then Char.ofNat (c.toNat + 32) else c

/-- The error taxonomy seen by the strategy executors.  `remediation`
models wrapping with `fmt.Errorf("%w; you can try updating using ...")`. -/
inductive UpdateError where
  | userAborted
  | notRoot
  | versionLookupFailed
  | subprocessFailed (msg : List Char)
  | remediation (e : UpdateError) (hint : List Char)
deriving DecidableEq

/-- `errors.Is(err, errUserAborted)`: unwraps `remediation` layers. -/
def errorsIsUserAborted : UpdateError → Bool
  | UpdateError.userAborted => true
  | UpdateError.remediation e _ => errorsIsUserAborted e
  | _ => false

def affirmativeResponses : List (List Char) := [chars "y", chars "yes", chars "sure"]

/-- `(*updater).confirm`: `resp` is the line read by `fmt.Scanln` (empty
when the read fails). -/
def confirm (yes : Bool) (resp : List Char) : Except UpdateError Unit :=
  if yes then Except.ok ()
  else if goToLower resp ∈ affirmativeResponses then Except.ok ()
  else Except.error UpdateError.userAborted

/-- The deferred wrapper in `updateFedoraLike` (and `updateArchLike`):
any error other than `errUserAborted` gets the remediation suffix. -/
def fedoraWrapDefer (packageManager : List Char) :
    Except UpdateError Unit → Except UpdateError Unit
  | Except.ok u => Except.ok u
  | Except.error e =>
    if errorsIsUserAborted e then Except.error e
    else Except.error (UpdateError.remediation e
      (chars "you can try updating using " ++ packageManager ++ chars " upgrade tailscale"))

/-- `(*updater).currentOrDryRun`. -/
def currentOrDryRun (currentVersion ver : List Char) (dryRun : Bool) : Bool :=
  (currentVersion == ver) || dryRun

/-- Environment for one run of the Fedora-like executor. -/
structure FedoraEnv where
  isRoot : Bool
  verResult : Except UpdateError (List Char)
  currentVersion : List Char
  dryRun : Bool
  yesFlag : Bool
  resp : List Char
  repoResult : Except UpdateError Bool
  installResult : Except UpdateError Unit

/-- The body of the closure returned by `updateFedoraLike`, before the
deferred remediation wrapping. -/
def updateFedoraLikeBody (env : FedoraEnv) : Except UpdateError Unit :=
  if ¬ env.isRoot then Except.error UpdateError.notRoot
  else
    match env.verResult with
    | Except.error e => Except.error e
    | Except.ok ver =>
      if currentOrDryRun env.currentVersion ver env.dryRun then Except.ok ()
      else
        match confirm env.yesFlag env.resp with
        | Except.error e => Except.error e
        | Except.ok _ =>
          match env.repoResult with
          | Except.error e => Except.error e
          | Except.ok _ => env.installResult

/-- `updateFedoraLike`'s closure: body plus the deferred wrapper. -/
def updateFedoraLike (packageManager : List Char) (env : FedoraEnv) :
    Except UpdateError Unit :=
  fedoraWrapDefer packageManager (updateFedoraLikeBody env)

/-! ## `runUpdate` validation gate and the Linux dispatcher -/

inductive GoIOOp where
  | lookPath (name : List Char)
  | execProg (name : List Char)
  | readFile (path : List Char)
  | httpGet (url : List Char)
deriving DecidableEq

inductive RunOutcome where
  | msiInstall (path : List Char)
  | helpErr
  | bothFlagsErr
  | proceed
deriving DecidableEq

/-- The front of `runUpdate`, up to and including the mutual-exclusion
check of `--version`/`--track`, paired with the network/file-system
operations performed before the returned outcome (none on the
validation-error path; `newUpdater` and the chosen strategy run only on
`proceed`). -/
def runUpdateGate (msiEnv : List Char) (args : List (List Char))
    (version track : List Char) : RunOutcome × List GoIOOp :=
  if msiEnv ≠ [] then (RunOutcome.msiInstall msiEnv, [GoIOOp.execProg (chars "msiexec.exe")])
  else if args ≠ [] then (RunOutcome.helpErr, [])
  else if version ≠ [] ∧ track ≠ [] then (RunOutcome.bothFlagsErr, [])
  else (RunOutcome.proceed,
    [GoIOOp.lookPath (chars "pacman"), GoIOOp.lookPath (chars "apt-get"),
     GoIOOp.lookPath (chars "dnf"), GoIOOp.lookPath (chars "yum")])

inductive LinuxDistro where
  | synology
  | debian
  | arch
  | other
deriving DecidableEq

/-- Which package-manager executables `exec.LookPath` finds. -/
structure ExeAvail where
  pacman : Bool
  aptGet : Bool
  dnf : Bool
  yum : Bool
deriving DecidableEq

inductive UpdateStrategy where
  | synology
  | debLike
  | archLike
  | fedoraLike (packageManager : List Char)
deriving DecidableEq

/-- The `case "linux"` arm of `newUpdater`: the first `switch` assigns by
distro, then the second `switch` runs unconditionally and overwrites the
assignment whenever one of the probed executables exists. -/
def newUpdaterLinux (d : LinuxDistro) (e : ExeAvail) : Option UpdateStrategy :=
  let afterDistro : Option UpdateStrategy :=
    match d with
    | LinuxDistro.synology => some UpdateStrategy.synology
    | LinuxDistro.debian => some UpdateStrategy.debLike
    | LinuxDistro.arch => some UpdateStrategy.archLike
    | LinuxDistro.other => none
  if e.pacman then some UpdateStrategy.archLike
  else if e.aptGet then some UpdateStrategy.debLike
  else if e.dnf then some (UpdateStrategy.fedoraLike (chars "dnf"))
  else if e.yum then some (UpdateStrategy.fedoraLike (chars "yum"))
  else afterDistro

/-! ## Claim theorems -/

/-- C1, counterexample: the yum rewriter is not idempotent on every input.
On `"[tailscale-stable]\nq\r\r\n"` the first rewrite to `unstable`
succeeds and produces `"[tailscale-unstable]\nq\r\n"`, but rewriting that
output again reports `rewrote = true` (the scanner strips the remaining
`"\r"` before the newline, so the regenerated content differs again). -/
theorem yum_idempotence_cr_counterexample :
    updateYUMRepoTrack (chars "unstable") (chars "[tailscale-stable]\nq\r\r\n")
      = some (true, chars "[tailscale-unstable]\nq\r\n")
    ∧ updateYUMRepoTrack (chars "unstable") (chars "[tailscale-unstable]\nq\r\n")
      = some (true, chars "[tailscale-unstable]\nq\n") :=
  ⟨by decide, by decide⟩

/-- C1 (amended): the apt rewriter `updateDebianAptSourcesListBytes` is
idempotent for every input and both tracks; the yum rewriting core is
idempotent for every input that contains no carriage-return byte. -/
theorem configRewriter_idempotent_amended :
    (∀ (dstTrack was out : List Char),
      (dstTrack = chars "stable" ∨ dstTrack = chars "unstable") →
      updateDebianAptSourcesListBytes was dstTrack = Except.ok out →
      updateDebianAptSourcesListBytes out dstTrack = Except.ok out)
    ∧ (∀ (dstTrack was out : List Char),
      (dstTrack = chars "stable" ∨ dstTrack = chars "unstable") →
      '\r' ∉ was →
      yumNewContent dstTrack was = some out →
      yumNewContent dstTrack out = some out) :=
  ⟨fun d w o h1 h2 => apt_rewrite_idempotent d w o h1 h2,
   fun d w o h1 h2 h3 => yum_rewrite_idempotent d w o h1 h2 h3⟩

/-- Witness for C1's theorem at concrete inputs. -/
theorem configRewriter_idempotent_amended_witness :
    updateDebianAptSourcesListBytes
        (chars "deb https://pkgs.tailscale.com/unstable/ main\n") (chars "unstable")
      = Except.ok (chars "deb https://pkgs.tailscale.com/unstable/ main\n")
    ∧ yumNewContent (chars "unstable")
        (chars "[tailscale-unstable]\nname=Tailscale unstable\n")
      = some (chars "[tailscale-unstable]\nname=Tailscale unstable\n") :=
  ⟨configRewriter_idempotent_amended.1 (chars "unstable")
      (chars "deb https://pkgs.tailscale.com/stable/ main\n") _ (Or.inr rfl) (by decide),
   configRewriter_idempotent_amended.2 (chars "unstable")
      (chars "[tailscale-stable]\nname=Tailscale stable\n") _ (Or.inr rfl) (by decide) (by decide)⟩

/-- C2, counterexample: an input with two occurrences needing change is
not rejected when another occurrence already names the desired track —
the function reports "unchanged" instead (`hadCorrect` short-circuits). -/
theorem apt_multiple_changes_accepted_counterexample :
    aptChangeCount (chars "unstable")
      (chars "deb https://pkgs.tailscale.com/unstable/ m\ndeb https://pkgs.tailscale.com/stable/ a\ndeb https://pkgs.tailscale.com/stable/ b\n") = 2
    ∧ updateDebianAptSourcesListBytes
        (chars "deb https://pkgs.tailscale.com/unstable/ m\ndeb https://pkgs.tailscale.com/stable/ a\ndeb https://pkgs.tailscale.com/stable/ b\n")
        (chars "unstable")
      = Except.ok (chars "deb https://pkgs.tailscale.com/unstable/ m\ndeb https://pkgs.tailscale.com/stable/ a\ndeb https://pkgs.tailscale.com/stable/ b\n") :=
  ⟨rfl, rfl⟩

/-- C2 (amended): with zero matches counted correct, zero or more than
one changed occurrence makes `updateDebianAptSourcesListBytes` fail with
the "unexpected/unsupported contents" error, returning no content. -/
theorem apt_rejects_zero_or_multiple_changes :
    ∀ (dstTrack was : List Char), aptCorrectCount dstTrack was = 0 →
      (aptChangeCount dstTrack was = 0 ∨ 2 ≤ aptChangeCount dstTrack was) →
      updateDebianAptSourcesListBytes was dstTrack
        = Except.error (chars "unexpected/unsupported " ++ aptSourcesFile ++ chars " contents") := by
  intro dst was h0 hch
  have hne1 : aptChangeCount dst was ≠ 1 := by rcases hch with h | h <;> omega
  rw [updateDebianAptSourcesListBytes]
  rw [if_neg (by push_neg; exact ⟨h0, fun hb => absurd hb hne1⟩), if_pos hne1]

/-- Witness for C2's theorem on content with no track-scoped URL at all. -/
theorem apt_rejects_zero_or_multiple_changes_witness :
    updateDebianAptSourcesListBytes (chars "# nothing relevant here\n") (chars "unstable")
      = Except.error (chars "unexpected/unsupported " ++ aptSourcesFile ++ chars " contents") :=
  apt_rejects_zero_or_multiple_changes (chars "unstable") (chars "# nothing relevant here\n")
    (by decide) (Or.inl (by decide))

/-- C3, counterexample: `"1.44"` has two dot-separated components and a
numeric second component, yet `versionIsStable` reports it malformed
(the code demands a second dot before the check). -/
theorem versionIsStable_two_component_counterexample :
    (dotComponents (chars "1.44")).length = 2
    ∧ (dotComponents (chars "1.44")).get? 1 = some (chars "44")
    ∧ (goAtoi (chars "44")).isSome = true
    ∧ versionIsStable (chars "1.44") = (false, false) :=
  ⟨by decide, by decide, by decide, by decide⟩

/-- C3 (amended): a version string is well-formed exactly when it has at
least three dot-separated components (two dots) and an `Atoi`-numeric
second component; then the track is stable iff that component is even.
The listed examples behave as claimed. -/
theorem versionIsStable_characterization :
    (∀ v : List Char,
      (versionIsStable v).2
        = (decide (3 ≤ (dotComponents v).length) && (goAtoi (secondDotComponent v)).isSome))
    ∧ (∀ (v : List Char) (m : Int), 3 ≤ (dotComponents v).length →
        goAtoi (secondDotComponent v) = some m →
        versionIsStable v = (m % 2 == 0, true))
    ∧ versionIsStable (chars "1.44.0") = (true, true)
    ∧ versionIsStable (chars "1.46.2") = (true, true)
    ∧ versionIsStable (chars "1.45.3") = (false, true)
    ∧ versionIsStable (chars "1.47.1") = (false, true)
    ∧ versionIsStable (chars "1") = (false, false)
    ∧ versionIsStable (chars "abc.def") = (false, false) :=
  ⟨versionIsStable_wellFormed_iff,
   fun v m h1 h2 => versionIsStable_of_numeric v m h1 h2,
   by decide, by decide, by decide, by decide, by decide, by decide⟩

/-- Witness for C3's theorem at `"1.45.3"`. -/
theorem versionIsStable_characterization_witness :
    3 ≤ (dotComponents (chars "1.45.3")).length
    ∧ goAtoi (secondDotComponent (chars "1.45.3")) = some 45
    ∧ versionIsStable (chars "1.45.3") = (((45 : Int) % 2 == 0), true) :=
  ⟨by decide, by decide,
   versionIsStable_characterization.2.1 (chars "1.45.3") 45 (by decide) (by decide)⟩

/-- C4, evaluation at the failing input: in `newUpdater`'s Linux arm, the
executable probe runs unconditionally after the distro switch and
overwrites its assignment.  A Debian host with `pacman` on the path gets
the pacman strategy, and a Synology host with `yum` gets the yum
strategy; the distro mapping only survives when none of the four probed
executables exists. -/
theorem newUpdaterLinux_probe_overrides_distro :
    newUpdaterLinux LinuxDistro.debian ⟨true, false, false, false⟩
        = some UpdateStrategy.archLike
    ∧ newUpdaterLinux LinuxDistro.synology ⟨false, false, false, true⟩
        = some (UpdateStrategy.fedoraLike (chars "yum"))
    ∧ newUpdaterLinux LinuxDistro.debian ⟨false, false, false, false⟩
        = some UpdateStrategy.debLike :=
  ⟨rfl, rfl, rfl⟩

/-- C5: with the handoff environment variable unset and no positional
arguments, any request carrying both a non-empty explicit version and a
non-empty explicit track fails with the "cannot specify both" validation
error, and the operations performed before that outcome include no
network or file-system access. -/
theorem runUpdate_rejects_version_and_track :
    ∀ (version track : List Char), version ≠ [] → track ≠ [] →
      runUpdateGate [] [] version track = (RunOutcome.bothFlagsErr, []) := by
  intro version track hv ht
  rw [runUpdateGate, if_neg (by simp), if_neg (by simp), if_pos ⟨hv, ht⟩]

/-- Witness for C5's theorem. -/
theorem runUpdate_rejects_version_and_track_witness :
    runUpdateGate [] [] (chars "1.45.3") (chars "stable") = (RunOutcome.bothFlagsErr, []) :=
  runUpdate_rejects_version_and_track (chars "1.45.3") (chars "stable") (by decide) (by decide)

/-- C6: the transfer succeeds only when the streamed byte count equals
the declared content length and the computed digest equals the decoded
expected digest; a length mismatch fails with the length error, and a
digest mismatch fails with the integrity error. -/
theorem downloadURLToFile_length_and_hash_checks :
    ∀ (sha256 : List Nat → List Nat) (env : DLEnv),
      (downloadURLToFile sha256 env = Except.ok () →
        (dlStreamed env).length = env.contentLength.toNat
          ∧ ∃ w, dlWantHash env = some w ∧ sha256 (dlStreamed env) = w)
      ∧ (env.headStatus = 200 → 0 < env.contentLength → env.dlStatus = 200 →
          ∀ w, dlWantHash env = some w →
          (dlStreamed env).length ≠ env.contentLength.toNat →
          downloadURLToFile sha256 env = Except.error DLError.lengthMismatch)
      ∧ (env.headStatus = 200 → 0 < env.contentLength → env.dlStatus = 200 →
          ∀ w, dlWantHash env = some w →
          (dlStreamed env).length = env.contentLength.toNat →
          sha256 (dlStreamed env) ≠ w →
          downloadURLToFile sha256 env = Except.error DLError.hashMismatch) := by
  intro sha env
  refine ⟨?_, ?_, ?_⟩
  · intro h
    unfold downloadURLToFile at h
    by_cases h1 : env.headStatus ≠ 200
    · rw [if_pos h1] at h; exact absurd h (by simp)
    · rw [if_neg h1] at h
      by_cases h2 : env.contentLength ≤ 0
      · rw [if_pos h2] at h; exact absurd h (by simp)
      · rw [if_neg h2, if_neg h1] at h
        cases hw : dlWantHash env with
        | none => rw [hw] at h; exact absurd h (by simp)
        | some w =>
          rw [hw] at h
          dsimp only at h
          by_cases h3 : env.dlStatus ≠ 200
          · rw [if_pos h3] at h; exact absurd h (by simp)
          · rw [if_neg h3] at h
            by_cases h4 : (dlStreamed env).length ≠ env.contentLength.toNat
            · rw [if_pos h4] at h; exact absurd h (by simp)
            · rw [if_neg h4] at h
              by_cases h5 : sha (dlStreamed env) ≠ w
              · rw [if_pos h5] at h; exact absurd h (by simp)
              · push_neg at h4 h5
                exact ⟨h4, w, rfl, h5⟩
  · intro hh hcl hdl w hw hlen
    unfold downloadURLToFile
    rw [if_neg (by simp [hh]), if_neg (by omega), if_neg (by simp [hh]), hw]
    dsimp only
    rw [if_neg (by simp [hdl]), if_pos hlen]
  · intro hh hcl hdl w hw hlen hsha
    unfold downloadURLToFile
    rw [if_neg (by simp [hh]), if_neg (by omega), if_neg (by simp [hh]), hw]
    dsimp only
    rw [if_neg (by simp [hdl]), if_neg (by simp [hlen]), if_pos hsha]

/-- Witness for C6's theorem: a body shorter than the declared length is
a length-mismatch failure. -/
theorem downloadURLToFile_length_and_hash_checks_witness :
    downloadURLToFile (fun _ => [0]) ⟨200, 3, 200, chars "abcd", 200, [1, 2]⟩
      = Except.error DLError.lengthMismatch :=
  (downloadURLToFile_length_and_hash_checks (fun _ => [0])
      ⟨200, 3, 200, chars "abcd", 200, [1, 2]⟩).2.1
    rfl (by decide) rfl [171, 205] (by decide) (by decide)

/-- C7, evaluation at the failing input: the status check after the
checksum fetch reads `res.StatusCode` (the HEAD response, already known
to be 200) instead of `hashRes.StatusCode`, so a checksum response with
status 404 and a well-formed hex body lets the download succeed. -/
theorem downloadURLToFile_ignores_checksum_status :
    (⟨200, 3, 404, chars "abcd", 200, [1, 2, 3]⟩ : DLEnv).hashStatus = 404
    ∧ downloadURLToFile (fun _ => [171, 205]) ⟨200, 3, 404, chars "abcd", 200, [1, 2, 3]⟩
        = Except.ok () :=
  ⟨rfl, rfl⟩

/-- C8, counterexample: on the exact body
`"deb https://pkgs.example.com/stable/ tailscale main\n"` the apt
rewriter fails with the "unexpected/unsupported contents" error — the
URL regex matches only the `pkgs.tailscale.com` host, so this content
has zero occurrences. -/
theorem apt_example_host_counterexample :
    updateDebianAptSourcesListBytes
        (chars "deb https://pkgs.example.com/stable/ tailscale main\n") (chars "unstable")
      = Except.error (chars "unexpected/unsupported " ++ aptSourcesFile ++ chars " contents") :=
  rfl

/-- C8 (amended): with the host the code actually manages,
`"deb https://pkgs.tailscale.com/stable/ tailscale main\n"` rewritten to
`unstable` yields exactly
`"deb https://pkgs.tailscale.com/unstable/ tailscale main\n"`, and
rewriting that output again returns it unchanged. -/
theorem apt_end_to_end_rewrite :
    updateDebianAptSourcesListBytes
        (chars "deb https://pkgs.tailscale.com/stable/ tailscale main\n") (chars "unstable")
      = Except.ok (chars "deb https://pkgs.tailscale.com/unstable/ tailscale main\n")
    ∧ updateDebianAptSourcesListBytes
        (chars "deb https://pkgs.tailscale.com/unstable/ tailscale main\n") (chars "unstable")
      = Except.ok (chars "deb https://pkgs.tailscale.com/unstable/ tailscale main\n") :=
  ⟨rfl, rfl⟩

theorem confirm_not_affirmative (resp : List Char)
    (h : goToLower resp ∉ affirmativeResponses) :
    confirm false resp = Except.error UpdateError.userAborted := by
  rw [confirm, if_neg (by simp), if_neg h]

/-- C9: a non-affirmative (or empty) response makes `confirm` return the
distinct user-aborted error; the Fedora-like executor then returns that
same error unwrapped, because the deferred remediation wrapper attaches
its suffix only to errors that are not `errUserAborted`. -/
theorem confirm_userAborted_distinct :
    (∀ resp : List Char, goToLower resp ∉ affirmativeResponses →
      confirm false resp = Except.error UpdateError.userAborted)
    ∧ (∀ (packageManager : List Char) (env : FedoraEnv) (ver : List Char),
        env.isRoot = true → env.verResult = Except.ok ver →
        currentOrDryRun env.currentVersion ver env.dryRun = false →
        env.yesFlag = false → goToLower env.resp ∉ affirmativeResponses →
        updateFedoraLike packageManager env = Except.error UpdateError.userAborted)
    ∧ (∀ packageManager : List Char,
        fedoraWrapDefer packageManager (Except.error UpdateError.userAborted)
          = Except.error UpdateError.userAborted)
    ∧ (∀ (packageManager : List Char) (e : UpdateError), errorsIsUserAborted e = false →
        fedoraWrapDefer packageManager (Except.error e)
          = Except.error (UpdateError.remediation e
              (chars "you can try updating using " ++ packageManager
                ++ chars " upgrade tailscale"))) := by
  refine ⟨confirm_not_affirmative, ?_, ?_, ?_⟩
  · intro pm env ver hroot hver hcur hyes hresp
    unfold updateFedoraLike updateFedoraLikeBody
    rw [hroot, if_neg (by simp), hver]
    dsimp only
    rw [if_neg (by simp [hcur]), hyes, confirm_not_affirmative env.resp hresp]
    rfl
  · intro pm
    rfl
  · intro pm e he
    unfold fedoraWrapDefer
    dsimp only
    rw [if_neg (by simp [he])]

/-- Witness for C9's theorem: an operator answering `"n"`. -/
theorem confirm_userAborted_distinct_witness :
    confirm false (chars "n") = Except.error UpdateError.userAborted
    ∧ updateFedoraLike (chars "dnf")
        ⟨true, Except.ok (chars "1.44.2"), chars "1.44.0", false, false, chars "n",
          Except.ok false, Except.ok ()⟩
        = Except.error UpdateError.userAborted :=
  ⟨confirm_userAborted_distinct.1 (chars "n") (by decide),
   confirm_userAborted_distinct.2.1 (chars "dnf")
     ⟨true, Except.ok (chars "1.44.2"), chars "1.44.0", false, false, chars "n",
       Except.ok false, Except.ok ()⟩
     (chars "1.44.2") rfl rfl (by decide) rfl (by decide)⟩

/-- C10: in the yum rewriter, every scanned line beginning with `name=`
is emitted as exactly `name=Tailscale <track>`, discarding whatever
followed `name=`; the successful output is precisely the concatenation of
the per-line emissions. -/
theorem yum_name_line_replaced_wholesale :
    (∀ (dstTrack l : List Char), List.isPrefixOf (chars "name=") l = true →
      yumLineEmit dstTrack l = some (chars "name=Tailscale " ++ dstTrack))
    ∧ (∀ (dstTrack was out : List Char), yumNewContent dstTrack was = some out →
        ∃ outs, (goScanLines was).mapM (yumLineEmit dstTrack) = some outs
          ∧ out = unlines outs) := by
  constructor
  · intro dst l h
    have hl : l = 'n' :: l.drop 1 := by
      cases l with
      | nil => exact absurd h (by decide)
      | cons c cs =>
        have hc : c = 'n' := by
          rw [show chars "name=" = 'n' :: chars "ame=" from rfl,
            isPrefixOf_cons_cons] at h
          rcases Bool.and_eq_true_iff.mp h with ⟨hq, -⟩
          have hq' : 'n' = c := of_decide_eq_true (by simpa [BEq.beq] using hq)
          exact hq'.symm
        rw [hc]
        rfl
    rw [yumLineEmit]
    have hhead : ¬ l.head? = some '[' := by
      rw [hl]
      simp
    rw [if_neg hhead, if_pos (by simp [h])]
  · intro dst was out h
    unfold yumNewContent at h
    cases ho : (goScanLines was).mapM (yumLineEmit dst) with
    | none => rw [ho] at h; simp at h
    | some outs =>
      rw [ho] at h
      rw [show Option.map unlines (some outs) = some (unlines outs) from rfl] at h
      injection h with h
      exact ⟨outs, rfl, h.symm⟩

/-- Witness for C10's theorem: a `name=` line with unrelated content. -/
theorem yum_name_line_replaced_wholesale_witness :
    yumLineEmit (chars "unstable") (chars "name=Some Custom Repo")
      = some (chars "name=Tailscale unstable") :=
  yum_name_line_replaced_wholesale.1 (chars "unstable")
    (chars "name=Some Custom Repo") (by decide)
